import Mathlib

/-!
Verification of the algoTradingSim backtesting engine.

The source program (`src/backtester.py`, `src/options.py`, `src/metrics.py`)
is shallowly embedded here over `ℚ` (exact rational arithmetic standing for
Python floats).  The Black-Scholes pricer `bs_price` uses the transcendental
functions `erf`, `log`, `exp`; the backtest loops therefore take the pricer as
an explicit function parameter of type `Pricer`, and all theorems about the
options variants are proved for *every* pricer, which is strictly stronger
than fixing the concrete Black-Scholes function.  Everything else is a direct
translation of the source.
-/

namespace AlgoSim

/-- One OHLCV bar of the input frame: the `Open` and `Close` columns, plus the
`RV` realized-volatility column used by the options variants (`none` models a
NaN entry). -/
structure Bar where
  Open : ℚ
  Close : ℚ
  RV : Option ℚ := none
deriving DecidableEq

/-- The `cfg.execution` field; the source validates the string is one of
`"next_open"`/`"next_close"` and raises otherwise, so a value of this type is
a validated execution mode. -/
inductive Execution
  | next_open
  | next_close
deriving DecidableEq

/-- `BacktestConfig` (source lines 9-29), with the dataclass defaults. -/
structure BacktestConfig where
  initial_cash : ℚ := 10000
  fee_bps : ℚ := 2
  slippage_bps : ℚ := 3
  execution : Execution := Execution.next_open
  max_leverage : ℚ := 1
  long_only : Bool := true
  allow_short : Bool := false
  option_dte_days : ℕ := 30
  option_contract_multiplier : ℕ := 100
  option_strike_step : ℚ := 1
  risk_free_rate : ℚ := 0
  call_otm_pct : ℚ := 0
  call_contracts : ℤ := 1
deriving DecidableEq

/-- `_trade_cost` (source lines 32-33): `notional * (fee_bps + slippage_bps) / 10_000`. -/
def trade_cost (notional fee_bps slippage_bps : ℚ) : ℚ :=
  notional * (fee_bps + slippage_bps) / 10000

/-- The combined fee-plus-slippage rate `k = (fee_bps + slippage_bps) / 10_000`
(the factor the source calls `k` at lines 124 and 352). -/
def feeRate (cfg : BacktestConfig) : ℚ :=
  (cfg.fee_bps + cfg.slippage_bps) / 10000

/-- The execution-price column choice (source line 63 / 188 / 305):
the bar's open for `next_open`, its close for `next_close`. -/
def execPrice (cfg : BacktestConfig) (b : Bar) : ℚ :=
  match cfg.execution with
  | Execution.next_open => b.Open
  | Execution.next_close => b.Close

/-- `buy_and_hold_equity` (source lines 36-42) over the `Close` column:
`shares = initial_cash / first` if the first close is positive, else `0`,
and the equity series is `shares * Close` at every bar. -/
def buy_and_hold_equity (closes : List ℚ) (initial_cash : ℚ) : List ℚ :=
  match closes with
  | [] => []
  | first :: _ =>
    let shares := if 0 < first then initial_cash / first else 0
    closes.map (fun c => shares * c)

/-- Python's builtin `round` on a rational: round to the nearest integer,
with exact halves going to the even integer (Python rounds half to even). -/
def pyRound (x : ℚ) : ℤ :=
  if x - (⌊x⌋ : ℚ) < 1 / 2 then ⌊x⌋
  else if 1 / 2 < x - (⌊x⌋ : ℚ) then ⌊x⌋ + 1
  else if ⌊x⌋ % 2 = 0 then ⌊x⌋ else ⌊x⌋ + 1

/-- `round_strike` (source `options.py` lines 37-39): `round(S / step) * step`. -/
def round_strike (S : ℚ) (step : ℚ) : ℚ :=
  (pyRound (S / step) : ℚ) * step

/-! ### The stock backtest (`run_stock_backtest`, source lines 45-168) -/

/-- One row of the stock backtest's output ledger (the columns built from the
`cash_hist`/`shares_hist`/... parallel lists at lines 156-166). -/
structure StockRow where
  Cash : ℚ
  Shares : ℚ
  Equity : ℚ
  TradeShares : ℚ
  TradeCost : ℚ
deriving DecidableEq

/-- The permission rules applied to the lagged target (source lines 77-81):
long-only collapses everything but `1` to `0`, and a negative target without
`allow_short` collapses to `0`. -/
def clampTarget (cfg : BacktestConfig) (t : ℤ) : ℤ :=
  let t1 := if cfg.long_only then (if t = 1 then 1 else 0) else t
  if t1 < 0 ∧ ¬cfg.allow_short then 0 else t1

/-- Opening a long stock position (source lines 116-133, duplicated verbatim at
lines 344-360 of the protective-put variant): invest `cash * max_leverage`,
and if the total outlay would exceed available cash, shrink the purchased
quantity so that outlay equals cash.  Returns
`(new cash, bought shares, open cost)`. -/
def openLong (cfg : BacktestConfig) (px_exec cash : ℚ) : ℚ × ℚ × ℚ :=
  let invest_cash := cash * cfg.max_leverage
  let buy_shares := invest_cash / px_exec
  let notional := buy_shares * px_exec
  let open_cost := trade_cost notional cfg.fee_bps cfg.slippage_bps
  let total := notional + open_cost
  if cash < total then
    let k := (cfg.fee_bps + cfg.slippage_bps) / 10000
    let buy_shares := cash / (px_exec * (1 + k))
    let notional := buy_shares * px_exec
    let open_cost := trade_cost notional cfg.fee_bps cfg.slippage_bps
    let total := notional + open_cost
    (cash - total, buy_shares, open_cost)
  else (cash - total, buy_shares, open_cost)

/-- One iteration of the `run_stock_backtest` loop body (source lines 74-154)
for bar `i ≥ 1`: `target` is the already-lagged, already-clamped target,
`px_exec`/`px_close` are bar `i`'s execution and close prices, and
`cash`/`shares` the running state.  The returned row's `Cash` and `Shares`
fields are the new state. -/
def stockStep (cfg : BacktestConfig) (target : ℤ) (px_exec px_close cash shares : ℚ) :
    StockRow :=
  let current : ℤ := if 0 < shares then 1 else if shares < 0 then -1 else 0
  if target ≠ current ∧ 0 < px_exec then
    let c1 : ℚ × ℚ × ℚ × ℚ :=
      if current = 1 then
        let notional := |shares| * px_exec
        let tc := trade_cost notional cfg.fee_bps cfg.slippage_bps
        (cash + notional - tc, 0, -shares, tc)
      else if current = -1 then
        let notional := |shares| * px_exec
        let tc := trade_cost notional cfg.fee_bps cfg.slippage_bps
        (cash - (notional + tc), 0, -shares, tc)
      else (cash, shares, 0, 0)
    let cash1 := c1.1
    let shares1 := c1.2.1
    let ts1 := c1.2.2.1
    let tc1 := c1.2.2.2
    if target = 1 then
      let r := openLong cfg px_exec cash1
      { Cash := r.1, Shares := shares1 + r.2.1,
        Equity := r.1 + (shares1 + r.2.1) * px_close,
        TradeShares := ts1 + r.2.1, TradeCost := tc1 + r.2.2 }
    else if target = -1 then
      let short_cash := cash1 * cfg.max_leverage
      let short_shares := short_cash / px_exec
      let notional := short_shares * px_exec
      let open_cost := trade_cost notional cfg.fee_bps cfg.slippage_bps
      { Cash := cash1 + notional - open_cost, Shares := shares1 - short_shares,
        Equity := cash1 + notional - open_cost + (shares1 - short_shares) * px_close,
        TradeShares := ts1 - short_shares, TradeCost := tc1 + open_cost }
    else
      { Cash := cash1, Shares := shares1, Equity := cash1 + shares1 * px_close,
        TradeShares := ts1, TradeCost := tc1 }
  else
    { Cash := cash, Shares := shares, Equity := cash + shares * px_close,
      TradeShares := 0, TradeCost := 0 }

/-- The `for i in range(1, len(df))` loop of `run_stock_backtest`: `bars` are
the remaining bars (bar `i` onward), `desired` is the reindexed desired-position
series as a function of bar index, and `cash`/`shares` is the running state. -/
def stockLoop (cfg : BacktestConfig) (desired : ℕ → ℤ) :
    List Bar → ℕ → ℚ → ℚ → List StockRow
  | [], _, _, _ => []
  | b :: rest, i, cash, shares =>
    let target := clampTarget cfg (desired (i - 1))
    let row := stockStep cfg target (execPrice cfg b) b.Close cash shares
    row :: stockLoop cfg desired rest (i + 1) row.Cash row.Shares

/-- The final `(cash, shares)` state after folding `stockLoop` over `bars`. -/
def stockFinal (cfg : BacktestConfig) (desired : ℕ → ℤ) :
    List Bar → ℕ → ℚ × ℚ → ℚ × ℚ
  | [], _, st => st
  | b :: rest, i, st =>
    let target := clampTarget cfg (desired (i - 1))
    let row := stockStep cfg target (execPrice cfg b) b.Close st.1 st.2
    stockFinal cfg desired rest (i + 1) (row.Cash, row.Shares)

/-- `run_stock_backtest` (source lines 45-168): row 0 records the initial state
(bar 0 equity is `cash + 0 * close₀`, line 70), then the loop processes bars
`1..n-1` reading the target from `desired (i-1)`. -/
def run_stock_backtest (cfg : BacktestConfig) (bars : List Bar) (desired : ℕ → ℤ) :
    List StockRow :=
  match bars with
  | [] => []
  | b0 :: rest =>
    { Cash := cfg.initial_cash, Shares := 0, Equity := cfg.initial_cash + 0 * b0.Close,
      TradeShares := 0, TradeCost := 0 } ::
      stockLoop cfg desired rest 1 cfg.initial_cash 0

/-- The `Equity` value of the last ledger row (final equity of the run). -/
def lastEquityS (rows : List StockRow) : ℚ :=
  (rows.getLastD { Cash := 0, Shares := 0, Equity := 0, TradeShares := 0, TradeCost := 0 }).Equity

/-- The `Cash` value of the last ledger row (final cash of the run). -/
def lastCashS (rows : List StockRow) : ℚ :=
  (rows.getLastD { Cash := 0, Shares := 0, Equity := 0, TradeShares := 0, TradeCost := 0 }).Cash

/-! ### The options variants

The source's `bs_price` (`options.py` lines 9-34) computes the Black-Scholes
price from `erf`, `log`, `exp`, `sqrt` — transcendental real functions with no
exact rational counterpart.  The backtest loops below therefore take the
pricer as an explicit parameter `pricer : Pricer`; every theorem about them
holds for an arbitrary pricer. -/

/-- The option kind argument (`option_type="call"` / `"put"`). -/
inductive OptionType
  | call
  | put
deriving DecidableEq

/-- The signature of `bs_price`: arguments `S K T sigma r option_type`. -/
def Pricer : Type :=
  ℚ → ℚ → ℚ → ℚ → ℚ → OptionType → ℚ

/-- The per-bar volatility input (source lines 207-208 / 325-326): the bar's
`RV` value, with NaN replaced by `0.25`, then floored at `0.05`. -/
def barSigma (b : Bar) : ℚ :=
  max (b.RV.getD (1 / 4)) (1 / 20)

/-- `contracts = max(int(cfg.call_contracts), 1)` (source line 192). -/
def callContracts (cfg : BacktestConfig) : ℤ :=
  max cfg.call_contracts 1

/-- The running option-leg state of `run_long_call_backtest`
(`cash`, `has_call`, `strike`, `expiry_i` of source lines 190-195). -/
structure CallState where
  cash : ℚ
  has_call : Bool
  strike : ℚ
  expiry_i : ℤ
deriving DecidableEq

/-- One row of the long-call ledger (source lines 275-285). -/
structure CallRow where
  Cash : ℚ
  OptionValue : ℚ
  Equity : ℚ
  TradeCount : ℕ
  TradeCost : ℚ
deriving DecidableEq

/-- Expiry auto-settlement of the call leg (source lines 213-219): if a call is
open and bar `i` has reached its expiry index, credit the intrinsic value
`max(close - strike, 0) * multiplier * contracts` and clear the leg. -/
def callSettle (cfg : BacktestConfig) (i : ℕ) (px_close : ℚ) (st : CallState) : CallState :=
  if st.has_call = true ∧ st.expiry_i ≤ (i : ℤ) then
    { cash := st.cash +
        max (px_close - st.strike) 0 * (cfg.option_contract_multiplier : ℚ) *
          (callContracts cfg : ℚ),
      has_call := false, strike := 0, expiry_i := -1 }
  else st

/-- The entry-pricing block of the long-call variant (source lines 227-235):
returns `(strike, trade cost, total debit)` for a prospective entry at
execution price `px_exec` with volatility `sigma`. -/
def call_entry_quote (pricer : Pricer) (cfg : BacktestConfig) (px_exec sigma : ℚ) :
    ℚ × ℚ × ℚ :=
  let S_for_strike := px_exec * (1 + cfg.call_otm_pct)
  let K := round_strike S_for_strike cfg.option_strike_step
  let T := (cfg.option_dte_days : ℚ) / 252
  let premium := pricer px_exec K T sigma cfg.risk_free_rate OptionType.call
  let notional := premium * (cfg.option_contract_multiplier : ℚ) * (callContracts cfg : ℚ)
  let tcost := trade_cost notional cfg.fee_bps cfg.slippage_bps
  (K, tcost, notional + tcost)

/-- One iteration of the `run_long_call_backtest` loop body (source lines
203-273) at bar `i` with raw lagged target `target`; `n` is the bar count
(`len(df)`), used for the expiry clamp `min(i + dte, n - 1)`. -/
def callStep (pricer : Pricer) (cfg : BacktestConfig) (n : ℕ) (target : ℤ) (i : ℕ)
    (b : Bar) (st : CallState) : CallState × CallRow :=
  let px_exec := execPrice cfg b
  let px_close := b.Close
  let sigma := barSigma b
  let st1 := callSettle cfg i px_close st
  let t : ℤ := if target = 1 then 1 else 0
  let s2 : CallState × ℚ × ℕ :=
    if t = 1 ∧ st1.has_call = false then
      let q := call_entry_quote pricer cfg px_exec sigma
      if q.2.2 ≤ st1.cash then
        ({ cash := st1.cash - q.2.2, has_call := true, strike := q.1,
           expiry_i := min ((i : ℤ) + (cfg.option_dte_days : ℤ)) ((n : ℤ) - 1) },
         q.2.1, 1)
      else (st1, q.2.1, 0)
    else if t = 0 ∧ st1.has_call = true then
      let remaining : ℤ := max (st1.expiry_i - (i : ℤ)) 0
      let T := (remaining : ℚ) / 252
      let mkt := pricer px_exec st1.strike T sigma cfg.risk_free_rate OptionType.call
      let proceeds := mkt * (cfg.option_contract_multiplier : ℚ) * (callContracts cfg : ℚ)
      let tcost := trade_cost proceeds cfg.fee_bps cfg.slippage_bps
      ({ cash := st1.cash + proceeds - tcost, has_call := false, strike := 0, expiry_i := -1 },
       tcost, 1)
    else (st1, 0, 0)
  let st2 := s2.1
  let opt_val : ℚ :=
    if st2.has_call = true then
      let remaining : ℤ := max (st2.expiry_i - (i : ℤ)) 0
      let T := (remaining : ℚ) / 252
      pricer px_close st2.strike T sigma cfg.risk_free_rate OptionType.call *
        (cfg.option_contract_multiplier : ℚ) * (callContracts cfg : ℚ)
    else 0
  (st2,
   { Cash := st2.cash, OptionValue := opt_val, Equity := st2.cash + opt_val,
     TradeCount := s2.2.2, TradeCost := s2.2.1 })

/-- The `for i in range(1, len(df))` loop of `run_long_call_backtest`. -/
def callLoop (pricer : Pricer) (cfg : BacktestConfig) (n : ℕ) (desired : ℕ → ℤ) :
    List Bar → ℕ → CallState → List CallRow
  | [], _, _ => []
  | b :: rest, i, st =>
    let r := callStep pricer cfg n (desired (i - 1)) i b st
    r.2 :: callLoop pricer cfg n desired rest (i + 1) r.1

/-- `run_long_call_backtest` (source lines 171-287): row 0 records the initial
all-cash state (lines 197-201), then the loop processes bars `1..n-1`. -/
def run_long_call_backtest (pricer : Pricer) (cfg : BacktestConfig) (bars : List Bar)
    (desired : ℕ → ℤ) : List CallRow :=
  match bars with
  | [] => []
  | _ :: rest =>
    { Cash := cfg.initial_cash, OptionValue := 0, Equity := cfg.initial_cash,
      TradeCount := 0, TradeCost := 0 } ::
      callLoop pricer cfg (rest.length + 1) desired rest 1
        { cash := cfg.initial_cash, has_call := false, strike := 0, expiry_i := -1 }

/-- The running state of `run_stock_protective_put_backtest`
(source lines 307-312). -/
structure PutState where
  cash : ℚ
  shares : ℚ
  has_put : Bool
  put_strike : ℚ
  put_expiry_i : ℤ
deriving DecidableEq

/-- One row of the protective-put ledger (source lines 418-429). -/
structure PutRow where
  Cash : ℚ
  Shares : ℚ
  PutValue : ℚ
  Equity : ℚ
  TradeCount : ℕ
  TradeCost : ℚ
deriving DecidableEq

/-- Expiry auto-settlement of the put leg (source lines 331-337): intrinsic
`max(put_strike - close, 0) * multiplier` (one contract), leg cleared. -/
def putSettle (cfg : BacktestConfig) (i : ℕ) (px_close : ℚ) (st : PutState) : PutState :=
  if st.has_put = true ∧ st.put_expiry_i ≤ (i : ℤ) then
    { st with
      cash := st.cash + max (st.put_strike - px_close) 0 * (cfg.option_contract_multiplier : ℚ),
      has_put := false, put_strike := 0, put_expiry_i := -1 }
  else st

/-- The put-entry pricing block (source lines 363-369): an ATM put, one
contract.  Returns `(strike, put cost, total debit)`. -/
def put_entry_quote (pricer : Pricer) (cfg : BacktestConfig) (px_exec sigma : ℚ) :
    ℚ × ℚ × ℚ :=
  let K := round_strike px_exec cfg.option_strike_step
  let T := (cfg.option_dte_days : ℚ) / 252
  let premium := pricer px_exec K T sigma cfg.risk_free_rate OptionType.put
  let put_notional := premium * (cfg.option_contract_multiplier : ℚ)
  let put_cost := trade_cost put_notional cfg.fee_bps cfg.slippage_bps
  (K, put_cost, put_notional + put_cost)

/-- One iteration of the `run_stock_protective_put_backtest` loop body
(source lines 321-416). -/
def putStep (pricer : Pricer) (cfg : BacktestConfig) (n : ℕ) (target : ℤ) (i : ℕ)
    (b : Bar) (st : PutState) : PutState × PutRow :=
  let px_exec := execPrice cfg b
  let px_close := b.Close
  let sigma := barSigma b
  let st1 := putSettle cfg i px_close st
  let t : ℤ := if target = 1 then 1 else 0
  let current : ℤ := if 0 < st1.shares then 1 else 0
  let s2 : PutState × ℚ × ℕ :=
    if t = 1 ∧ current = 0 ∧ 0 < px_exec then
      let r := openLong cfg px_exec st1.cash
      let cash2 := r.1
      let shares2 := st1.shares + r.2.1
      let q := put_entry_quote pricer cfg px_exec sigma
      if q.2.2 ≤ cash2 then
        ({ cash := cash2 - q.2.2, shares := shares2, has_put := true, put_strike := q.1,
           put_expiry_i := min ((i : ℤ) + (cfg.option_dte_days : ℤ)) ((n : ℤ) - 1) },
         r.2.2 + q.2.1, 2)
      else
        ({ st1 with cash := cash2, shares := shares2 }, r.2.2, 1)
    else if t = 0 ∧ current = 1 ∧ 0 < px_exec then
      let sell_notional := st1.shares * px_exec
      let stock_cost := trade_cost sell_notional cfg.fee_bps cfg.slippage_bps
      let cash2 := st1.cash + sell_notional - stock_cost
      if st1.has_put = true then
        let remaining : ℤ := max (st1.put_expiry_i - (i : ℤ)) 0
        let T := (remaining : ℚ) / 252
        let mkt := pricer px_exec st1.put_strike T sigma cfg.risk_free_rate OptionType.put
        let proceeds := mkt * (cfg.option_contract_multiplier : ℚ)
        let put_cost := trade_cost proceeds cfg.fee_bps cfg.slippage_bps
        ({ cash := cash2 + proceeds - put_cost, shares := 0, has_put := false,
           put_strike := 0, put_expiry_i := -1 }, stock_cost + put_cost, 2)
      else
        ({ st1 with cash := cash2, shares := 0 }, stock_cost, 1)
    else (st1, 0, 0)
  let st2 := s2.1
  let put_val : ℚ :=
    if st2.has_put = true then
      let remaining : ℤ := max (st2.put_expiry_i - (i : ℤ)) 0
      let T := (remaining : ℚ) / 252
      pricer px_close st2.put_strike T sigma cfg.risk_free_rate OptionType.put *
        (cfg.option_contract_multiplier : ℚ)
    else 0
  (st2,
   { Cash := st2.cash, Shares := st2.shares, PutValue := put_val,
     Equity := st2.cash + st2.shares * px_close + put_val,
     TradeCount := s2.2.2, TradeCost := s2.2.1 })

/-- The `for i in range(1, len(df))` loop of `run_stock_protective_put_backtest`. -/
def putLoop (pricer : Pricer) (cfg : BacktestConfig) (n : ℕ) (desired : ℕ → ℤ) :
    List Bar → ℕ → PutState → List PutRow
  | [], _, _ => []
  | b :: rest, i, st =>
    let r := putStep pricer cfg n (desired (i - 1)) i b st
    r.2 :: putLoop pricer cfg n desired rest (i + 1) r.1

/-- `run_stock_protective_put_backtest` (source lines 290-431): row 0 records
the initial all-cash state (lines 314-319), then the loop processes bars
`1..n-1`. -/
def run_stock_protective_put_backtest (pricer : Pricer) (cfg : BacktestConfig)
    (bars : List Bar) (desired : ℕ → ℤ) : List PutRow :=
  match bars with
  | [] => []
  | _ :: rest =>
    { Cash := cfg.initial_cash, Shares := 0, PutValue := 0, Equity := cfg.initial_cash,
      TradeCount := 0, TradeCost := 0 } ::
      putLoop pricer cfg (rest.length + 1) desired rest 1
        { cash := cfg.initial_cash, shares := 0, has_put := false, put_strike := 0,
          put_expiry_i := -1 }

/-! ### `max_drawdown` (source `metrics.py` lines 7-10) -/

/-- The series `equity / equity.cummax() - 1.0`, threading the running peak. -/
def drawdowns : List ℚ → ℚ → List ℚ
  | [], _ => []
  | e :: es, peak =>
    let p := max peak e
    (e / p - 1) :: drawdowns es p

/-- `max_drawdown` (source `metrics.py` lines 7-10): the minimum of
`equity / cummax(equity) - 1`.  The running peak starts at the first element
(as pandas `cummax` does); the empty case never occurs in the source. -/
def max_drawdown (equity : List ℚ) : ℚ :=
  match equity with
  | [] => 0
  | e :: _ =>
    match drawdowns equity e with
    | [] => 0
    | d :: ds => ds.foldl min d

/-- Pairwise state domination, the invariant behind cost monotonicity: the
higher-fee run's state `B = (cash, shares)` is componentwise nonnegative and
dominated by the lower-fee run's state `A`, strictly in at least one
component; and if `A` holds shares while `B` is flat, then `B` is completely
broke (`cash = 0`). -/
def Dominates (A B : ℚ × ℚ) : Prop :=
  0 ≤ B.1 ∧ 0 ≤ B.2 ∧ B.1 ≤ A.1 ∧ B.2 ≤ A.2 ∧ (B.1 < A.1 ∨ B.2 < A.2) ∧
    (0 < A.2 → B.2 = 0 → B.1 = 0)

/-! ### Concrete instances used by witnesses and counterexamples -/

/-- A trivial pricer (always 0), used to instantiate pricer-generic theorems. -/
def zeroPricer : Pricer := fun _ _ _ _ _ _ => 0

/-- A pricer returning the bare intrinsic value, another concrete instance. -/
def intrinsicPricer : Pricer := fun S K _ _ _ ty =>
  match ty with
  | OptionType.call => max (S - K) 0
  | OptionType.put => max (K - S) 0

/-- Config for the C3 witness: leverage cap 2 with zero fees forces the
shrink branch. -/
def cfgC3 : BacktestConfig :=
  { initial_cash := 100, fee_bps := 0, slippage_bps := 0, execution := Execution.next_open,
    max_leverage := 2, long_only := true, allow_short := false }

/-- A flat unit-price bar. -/
def unitBar : Bar := { Open := 1, Close := 1, RV := none }

/-- A flat no-position option-leg state with cash 100. -/
def flatPutState : PutState :=
  { cash := 100, shares := 0, has_put := false, put_strike := 0, put_expiry_i := -1 }

/-- Config for the C2 witness: zero costs, unit leverage. -/
def cfgC2 : BacktestConfig :=
  { initial_cash := 100, fee_bps := 0, slippage_bps := 0, execution := Execution.next_open,
    max_leverage := 1, long_only := true, allow_short := false }

/-- Config for the C6 counterexample: long-only but with a 200% round-trip
cost rate (`fee_bps = 20000`), which drives cash negative on a sell and then
shares negative on the next buy. -/
def cfgC6 : BacktestConfig :=
  { initial_cash := 100, fee_bps := 20000, slippage_bps := 0,
    execution := Execution.next_open, max_leverage := 1, long_only := true,
    allow_short := false }

/-- Four flat unit-price bars. -/
def barsC6 : List Bar := [unitBar, unitBar, unitBar, unitBar]

/-- Desired positions 1,0,1,0,...: buy, sell, buy again. -/
def desC6 : ℕ → ℤ := fun j => if j % 2 = 0 then 1 else 0

/-- Config pair for the C7 counterexample: identical short-enabled configs
differing only in `fee_bps` (0 vs 100). -/
def cfgC7A : BacktestConfig :=
  { initial_cash := 100, fee_bps := 0, slippage_bps := 0, execution := Execution.next_open,
    max_leverage := 1, long_only := false, allow_short := true }

/-- Same as `cfgC7A` with `fee_bps = 100` (1%). -/
def cfgC7B : BacktestConfig :=
  { cfgC7A with fee_bps := 100 }

/-- Bars for the C7 counterexample: flat at 1, then the close jumps to 4. -/
def barsC7 : List Bar := [unitBar, unitBar, unitBar, { Open := 1, Close := 4, RV := none }]

/-- Desired positions: long at bar 1, then short. -/
def desC7 : ℕ → ℤ := fun j => if j = 0 then 1 else -1

/-- Config for the C8 counterexample: shorting allowed, zero fees. -/
def cfgC8 : BacktestConfig :=
  { initial_cash := 100, fee_bps := 0, slippage_bps := 0, execution := Execution.next_open,
    max_leverage := 1, long_only := false, allow_short := true }

/-- Bars for the C8 counterexample: short at 1, close explodes to 10. -/
def barsC8 : List Bar := [unitBar, unitBar, { Open := 1, Close := 10, RV := none }]

/-- Desired position: always short. -/
def desC8 : ℕ → ℤ := fun _ => -1

/-! ### Basic lemmas -/

lemma trade_cost_eq_feeRate (cfg : BacktestConfig) (n : ℚ) :
    trade_cost n cfg.fee_bps cfg.slippage_bps = n * feeRate cfg := by
  unfold trade_cost feeRate
  ring

lemma pyRound_dist (x : ℚ) : |(pyRound x : ℚ) - x| ≤ 1 / 2 := by
  unfold pyRound
  have hf : (⌊x⌋ : ℚ) ≤ x := Int.floor_le x
  have hf1 : x < ⌊x⌋ + 1 := Int.lt_floor_add_one x
  have hr0 : 0 ≤ x - (⌊x⌋ : ℚ) := by linarith
  have hr1 : x - (⌊x⌋ : ℚ) < 1 := by linarith
  split_ifs with h1 h2 h3
  · rw [abs_sub_comm, abs_of_nonneg hr0]
    linarith
  · have : ((⌊x⌋ + 1 : ℤ) : ℚ) - x = 1 - (x - (⌊x⌋ : ℚ)) := by push_cast; ring
    rw [this, abs_of_nonneg (by linarith)]
    linarith
  · have hx : x - (⌊x⌋ : ℚ) = 1 / 2 := le_antisymm (not_lt.mp h2) (not_lt.mp h1)
    rw [abs_sub_comm, abs_of_nonneg hr0]
    linarith
  · have hx : x - (⌊x⌋ : ℚ) = 1 / 2 := le_antisymm (not_lt.mp h2) (not_lt.mp h1)
    have : ((⌊x⌋ + 1 : ℤ) : ℚ) - x = 1 - (x - (⌊x⌋ : ℚ)) := by push_cast; ring
    rw [this, abs_of_nonneg (by linarith)]
    linarith

lemma round_strike_dist (S step : ℚ) (h : 0 < step) :
    |round_strike S step - S| ≤ step / 2 := by
  have hd := pyRound_dist (S / step)
  have hne : step ≠ 0 := ne_of_gt h
  have key : round_strike S step - S = ((pyRound (S / step) : ℚ) - S / step) * step := by
    unfold round_strike
    field_simp
  rw [key, abs_mul, abs_of_pos h]
  calc |(pyRound (S / step) : ℚ) - S / step| * step ≤ (1 / 2) * step := by
        exact mul_le_mul_of_nonneg_right hd (le_of_lt h)
    _ = step / 2 := by ring

/-! ### Stock-step toolkit -/

lemma clampTarget_one (cfg : BacktestConfig) : clampTarget cfg 1 = 1 := by
  simp [clampTarget]

lemma clampTarget_zero (cfg : BacktestConfig) : clampTarget cfg 0 = 0 := by
  simp [clampTarget]

lemma clampTarget_long_only (cfg : BacktestConfig) (h : cfg.long_only = true) (t : ℤ) :
    clampTarget cfg t = 0 ∨ clampTarget cfg t = 1 := by
  unfold clampTarget
  rw [h]
  by_cases ht : t = 1 <;> simp [ht]

/-- Canonical closed form of `openLong` for nonnegative cash and positive
price: the new cash is `cash * max (1 - L*(1+k)) 0` and the bought quantity is
`cash * min L (1/(1+k)) / px`, where `L` is the leverage cap and `k` the fee
rate — the shrink branch fires exactly when `L*(1+k) > 1`. -/
lemma openLong_cash_shares (cfg : BacktestConfig) (px cash : ℚ) (hpx : 0 < px)
    (hc : 0 ≤ cash) (hk : 0 ≤ feeRate cfg) (hlev : 0 ≤ cfg.max_leverage) :
    (openLong cfg px cash).1 =
        cash * max (1 - cfg.max_leverage * (1 + feeRate cfg)) 0 ∧
      (openLong cfg px cash).2.1 =
        cash * min cfg.max_leverage (1 / (1 + feeRate cfg)) / px := by
  have hpx' : px ≠ 0 := ne_of_gt hpx
  simp only [openLong, trade_cost]
  rw [show ((cfg.fee_bps + cfg.slippage_bps) : ℚ) / 10000 = feeRate cfg from rfl]
  have ek : ∀ n : ℚ, n * (cfg.fee_bps + cfg.slippage_bps) / 10000 = n * feeRate cfg := by
    intro n
    unfold feeRate
    ring
  rw [ek, ek]
  set L := cfg.max_leverage with hLdef
  set k := feeRate cfg with hkdef
  have h1k : 0 < 1 + k := by linarith
  have h1k' : (1 + k) ≠ 0 := ne_of_gt h1k
  have e1 : cash * L / px * px = cash * L := by
    field_simp
  rw [e1]
  rcases eq_or_lt_of_le hc with hc0 | hcpos
  · rw [← hc0]
    norm_num
  · by_cases hcond : cash < cash * L + cash * L * k
    · rw [if_pos hcond]
      have hgt : 1 < L * (1 + k) := by
        have h' : cash * 1 < cash * (L * (1 + k)) := by ring_nf; ring_nf at hcond; linarith
        exact (mul_lt_mul_left hcpos).mp h'
      have hmax : max (1 - L * (1 + k)) 0 = 0 :=
        max_eq_right (by linarith)
      have hmin : min L (1 / (1 + k)) = 1 / (1 + k) := by
        apply min_eq_right
        rw [div_le_iff₀ h1k]
        nlinarith
      have key : cash / (px * (1 + k)) * px = cash / (1 + k) := by
        field_simp
        ring
      constructor
      · rw [hmax, key, mul_zero]
        field_simp
        ring
      · rw [hmin]
        field_simp
        left
        ring
    · rw [if_neg hcond]
      push_neg at hcond
      have hle : L * (1 + k) ≤ 1 := by
        have h' : cash * (L * (1 + k)) ≤ cash * 1 := by ring_nf; ring_nf at hcond; linarith
        exact le_of_mul_le_mul_left (by linarith [h']) hcpos
      have hmax : max (1 - L * (1 + k)) 0 = 1 - L * (1 + k) :=
        max_eq_left (by linarith)
      have hmin : min L (1 / (1 + k)) = L := by
        apply min_eq_left
        rw [le_div_iff₀ h1k]
        linarith
      constructor
      · rw [hmax]
        ring
      · rw [hmin]

/-- A bar with `target = current` (and any bar with a non-positive execution
price) trades nothing: the row repeats the state with zero flow and cost. -/
lemma stockStep_no_trade (cfg : BacktestConfig) (target : ℤ) (px pxc cash shares : ℚ)
    (h : target = (if 0 < shares then 1 else if shares < 0 then -1 else 0)) :
    stockStep cfg target px pxc cash shares =
      { Cash := cash, Shares := shares, Equity := cash + shares * pxc,
        TradeShares := 0, TradeCost := 0 } := by
  unfold stockStep
  rw [if_neg]
  rintro ⟨h1, -⟩
  exact h1 h

/-- Holding a long position (`target = 1`, positive shares) is a no-trade bar. -/
lemma stockStep_hold_long (cfg : BacktestConfig) (px pxc cash shares : ℚ)
    (hs : 0 < shares) :
    stockStep cfg 1 px pxc cash shares =
      { Cash := cash, Shares := shares, Equity := cash + shares * pxc,
        TradeShares := 0, TradeCost := 0 } :=
  stockStep_no_trade cfg 1 px pxc cash shares (by simp [hs])

/-- Staying flat (`target = 0`, zero shares) is a no-trade bar. -/
lemma stockStep_hold_flat (cfg : BacktestConfig) (px pxc cash : ℚ) :
    stockStep cfg 0 px pxc cash 0 =
      { Cash := cash, Shares := 0, Equity := cash + 0 * pxc,
        TradeShares := 0, TradeCost := 0 } :=
  stockStep_no_trade cfg 0 px pxc cash 0 (by simp)

/-- Opening a long from flat (`target = 1`, zero shares, positive price)
delegates to `openLong`. -/
lemma stockStep_open_long (cfg : BacktestConfig) (px pxc cash : ℚ) (hpx : 0 < px) :
    stockStep cfg 1 px pxc cash 0 =
      { Cash := (openLong cfg px cash).1, Shares := (openLong cfg px cash).2.1,
        Equity := (openLong cfg px cash).1 + (openLong cfg px cash).2.1 * pxc,
        TradeShares := (openLong cfg px cash).2.1,
        TradeCost := (openLong cfg px cash).2.2 } := by
  unfold stockStep
  norm_num [hpx]

/-- Selling an entire long position (`target = 0`, positive shares, positive
price): cash increases by the notional minus the trade cost. -/
lemma stockStep_sell_all (cfg : BacktestConfig) (px pxc cash shares : ℚ)
    (hs : 0 < shares) (hpx : 0 < px) :
    stockStep cfg 0 px pxc cash shares =
      { Cash := cash + shares * px - trade_cost (shares * px) cfg.fee_bps cfg.slippage_bps,
        Shares := 0,
        Equity := cash + shares * px - trade_cost (shares * px) cfg.fee_bps cfg.slippage_bps,
        TradeShares := -shares,
        TradeCost := trade_cost (shares * px) cfg.fee_bps cfg.slippage_bps } := by
  unfold stockStep
  norm_num [hs, hpx, abs_of_pos hs, ne_of_gt hs]

/-- In every branch of `stockStep`, the recorded equity is
`Cash + Shares * px_close`. -/
lemma stockStep_equity (cfg : BacktestConfig) (target : ℤ) (px pxc cash shares : ℚ) :
    (stockStep cfg target px pxc cash shares).Equity =
      (stockStep cfg target px pxc cash shares).Cash +
        (stockStep cfg target px pxc cash shares).Shares * pxc := by
  unfold stockStep
  dsimp only
  split_ifs <;> rfl

lemma feeRate_nonneg (cfg : BacktestConfig) (hf : 0 ≤ cfg.fee_bps)
    (hs : 0 ≤ cfg.slippage_bps) : 0 ≤ feeRate cfg := by
  unfold feeRate
  positivity

lemma openLong_cash_nonneg (cfg : BacktestConfig) (px cash : ℚ) (hpx : 0 < px)
    (hc : 0 ≤ cash) (hk : 0 ≤ feeRate cfg) (hlev : 0 ≤ cfg.max_leverage) :
    0 ≤ (openLong cfg px cash).1 := by
  rw [(openLong_cash_shares cfg px cash hpx hc hk hlev).1]
  exact mul_nonneg hc (le_max_right _ _)

lemma openLong_shares_nonneg (cfg : BacktestConfig) (px cash : ℚ) (hpx : 0 < px)
    (hc : 0 ≤ cash) (hk : 0 ≤ feeRate cfg) (hlev : 0 ≤ cfg.max_leverage) :
    0 ≤ (openLong cfg px cash).2.1 := by
  rw [(openLong_cash_shares cfg px cash hpx hc hk hlev).2]
  have h1k : (0 : ℚ) < 1 + feeRate cfg := by linarith
  exact div_nonneg (mul_nonneg hc (le_min hlev (by positivity))) (le_of_lt hpx)

/-- In the shrink case (`total > cash`), the purchased quantity satisfies
`shares * px * (1 + k) = cash` exactly. -/
lemma shrink_shares_eq (L k px cash : ℚ) (hpx : 0 < px) (hc : 0 ≤ cash) (hk : 0 ≤ k)
    (h : cash < cash * L * (1 + k)) :
    cash * min L (1 / (1 + k)) / px * (px * (1 + k)) = cash := by
  have h1k : (0 : ℚ) < 1 + k := by linarith
  rcases eq_or_lt_of_le hc with h0 | hpos
  · rw [← h0] at h
    simp at h
  · have hgt : 1 < L * (1 + k) := by
      have h' : cash * 1 < cash * (L * (1 + k)) := by nlinarith
      exact (mul_lt_mul_left hpos).mp h'
    have hmin : min L (1 / (1 + k)) = 1 / (1 + k) :=
      min_eq_right (by rw [div_le_iff₀ h1k]; nlinarith)
    rw [hmin]
    field_simp
    left
    ring

lemma putSettle_no_put (cfg : BacktestConfig) (i : ℕ) (pxc : ℚ) (st : PutState)
    (h : st.has_put = false) : putSettle cfg i pxc st = st := by
  unfold putSettle
  rw [if_neg]
  rintro ⟨h1, -⟩
  rw [h] at h1
  exact Bool.false_ne_true h1

/-- The protective-put entry bar (target 1 from a flat position, positive
execution price, no put open): the stock buy delegates to `openLong`, then the
put is bought only when the full put debit fits in the remaining cash. -/
lemma putStep_buy_state (pricer : Pricer) (cfg : BacktestConfig) (n i : ℕ) (b : Bar)
    (st : PutState) (hput : st.has_put = false) (hsh : ¬0 < st.shares)
    (hpx : 0 < execPrice cfg b) :
    (putStep pricer cfg n 1 i b st).1 =
      if (put_entry_quote pricer cfg (execPrice cfg b) (barSigma b)).2.2 ≤
          (openLong cfg (execPrice cfg b) st.cash).1 then
        { cash := (openLong cfg (execPrice cfg b) st.cash).1 -
            (put_entry_quote pricer cfg (execPrice cfg b) (barSigma b)).2.2,
          shares := st.shares + (openLong cfg (execPrice cfg b) st.cash).2.1,
          has_put := true,
          put_strike := (put_entry_quote pricer cfg (execPrice cfg b) (barSigma b)).1,
          put_expiry_i := min ((i : ℤ) + (cfg.option_dte_days : ℤ)) ((n : ℤ) - 1) }
      else
        { st with
          cash := (openLong cfg (execPrice cfg b) st.cash).1,
          shares := st.shares + (openLong cfg (execPrice cfg b) st.cash).2.1 } := by
  unfold putStep
  dsimp only
  rw [putSettle_no_put cfg i b.Close st hput]
  norm_num [hsh, hpx]
  split_ifs <;> rfl

/-! ### C3 — buy sizing never overdraws cash -/

/-- C3: in `run_stock_backtest` and `run_stock_protective_put_backtest`, on a
stock-buy bar (target 1 from flat, positive execution price, nonnegative cash,
nonnegative fees and leverage cap): cash is nonnegative immediately after the
buy, and whenever the unshrunk outlay `cash·L·(1+k)` would exceed cash, the
purchased quantity satisfies `shares · px · (1 + k) = cash` exactly. -/
theorem C3_buy_sizing :
    (∀ (cfg : BacktestConfig) (px pxc cash : ℚ), 0 < px → 0 ≤ cash →
      0 ≤ cfg.fee_bps → 0 ≤ cfg.slippage_bps → 0 ≤ cfg.max_leverage →
      0 ≤ (stockStep cfg 1 px pxc cash 0).Cash ∧
        (cash < cash * cfg.max_leverage * (1 + feeRate cfg) →
          (stockStep cfg 1 px pxc cash 0).Shares * (px * (1 + feeRate cfg)) = cash)) ∧
    (∀ (pricer : Pricer) (cfg : BacktestConfig) (n i : ℕ) (b : Bar) (st : PutState),
      st.has_put = false → st.shares = 0 → 0 < execPrice cfg b → 0 ≤ st.cash →
      0 ≤ cfg.fee_bps → 0 ≤ cfg.slippage_bps → 0 ≤ cfg.max_leverage →
      0 ≤ (putStep pricer cfg n 1 i b st).1.cash ∧
        (st.cash < st.cash * cfg.max_leverage * (1 + feeRate cfg) →
          (putStep pricer cfg n 1 i b st).1.shares *
              (execPrice cfg b * (1 + feeRate cfg)) = st.cash)) := by
  constructor
  · intro cfg px pxc cash hpx hc hf hs hl
    have hk : 0 ≤ feeRate cfg := feeRate_nonneg cfg hf hs
    rw [stockStep_open_long cfg px pxc cash hpx]
    constructor
    · exact openLong_cash_nonneg cfg px cash hpx hc hk hl
    · intro hshrink
      show (openLong cfg px cash).2.1 * (px * (1 + feeRate cfg)) = cash
      rw [(openLong_cash_shares cfg px cash hpx hc hk hl).2]
      exact shrink_shares_eq cfg.max_leverage (feeRate cfg) px cash hpx hc hk hshrink
  · intro pricer cfg n i b st hput hsh hpx hc hf hs hl
    have hk : 0 ≤ feeRate cfg := feeRate_nonneg cfg hf hs
    rw [putStep_buy_state pricer cfg n i b st hput (by simp [hsh]) hpx]
    split_ifs with hq
    · constructor
      · show 0 ≤ (openLong cfg (execPrice cfg b) st.cash).1 -
            (put_entry_quote pricer cfg (execPrice cfg b) (barSigma b)).2.2
        linarith [hq]
      · intro hshrink
        show (st.shares + (openLong cfg (execPrice cfg b) st.cash).2.1) *
            (execPrice cfg b * (1 + feeRate cfg)) = st.cash
        rw [hsh, zero_add, (openLong_cash_shares cfg (execPrice cfg b) st.cash hpx hc hk hl).2]
        exact shrink_shares_eq cfg.max_leverage (feeRate cfg) (execPrice cfg b) st.cash
          hpx hc hk hshrink
    · constructor
      · exact openLong_cash_nonneg cfg (execPrice cfg b) st.cash hpx hc hk hl
      · intro hshrink
        show (st.shares + (openLong cfg (execPrice cfg b) st.cash).2.1) *
            (execPrice cfg b * (1 + feeRate cfg)) = st.cash
        rw [hsh, zero_add, (openLong_cash_shares cfg (execPrice cfg b) st.cash hpx hc hk hl).2]
        exact shrink_shares_eq cfg.max_leverage (feeRate cfg) (execPrice cfg b) st.cash
          hpx hc hk hshrink

/-- A bar whose execution price is not positive never trades. -/
lemma stockStep_no_trade_px (cfg : BacktestConfig) (target : ℤ) (px pxc cash shares : ℚ)
    (h : ¬0 < px) :
    stockStep cfg target px pxc cash shares =
      { Cash := cash, Shares := shares, Equity := cash + shares * pxc,
        TradeShares := 0, TradeCost := 0 } := by
  unfold stockStep
  rw [if_neg]
  rintro ⟨-, h2⟩
  exact h h2

/-- With a long-only target (0 or 1), nonnegative fees summing to at most
10000 bps, and a nonnegative leverage cap, one step preserves
`0 ≤ cash ∧ 0 ≤ shares`. -/
lemma stockStep_nonneg (cfg : BacktestConfig) (t : ℤ) (px pxc cash shares : ℚ)
    (ht : t = 0 ∨ t = 1) (hc : 0 ≤ cash) (hs : 0 ≤ shares)
    (hf : 0 ≤ cfg.fee_bps) (hsl : 0 ≤ cfg.slippage_bps)
    (hk1 : cfg.fee_bps + cfg.slippage_bps ≤ 10000) (hl : 0 ≤ cfg.max_leverage) :
    0 ≤ (stockStep cfg t px pxc cash shares).Cash ∧
      0 ≤ (stockStep cfg t px pxc cash shares).Shares := by
  have hk : 0 ≤ feeRate cfg := feeRate_nonneg cfg hf hsl
  have hk1' : feeRate cfg ≤ 1 := by
    unfold feeRate
    linarith
  by_cases hpx : 0 < px
  · rcases eq_or_lt_of_le hs with hs0 | hspos
    · rw [← hs0]
      rcases ht with rfl | rfl
      · rw [stockStep_hold_flat]
        exact ⟨hc, le_refl 0⟩
      · rw [stockStep_open_long cfg px pxc cash hpx]
        exact ⟨openLong_cash_nonneg cfg px cash hpx hc hk hl,
          openLong_shares_nonneg cfg px cash hpx hc hk hl⟩
    · rcases ht with rfl | rfl
      · rw [stockStep_sell_all cfg px pxc cash shares hspos hpx]
        dsimp only
        rw [trade_cost_eq_feeRate]
        constructor
        · nlinarith [mul_nonneg (mul_nonneg hs hpx.le) (sub_nonneg.mpr hk1')]
        · exact le_refl 0
      · rw [stockStep_hold_long cfg px pxc cash shares hspos]
        exact ⟨hc, hs⟩
  · rw [stockStep_no_trade_px cfg t px pxc cash shares hpx]
    exact ⟨hc, hs⟩

/-- The loop-level invariant: starting from a nonnegative state, every row of
`stockLoop` in a long-only run has nonnegative cash and shares. -/
lemma stockLoop_nonneg (cfg : BacktestConfig) (d : ℕ → ℤ) (hlo : cfg.long_only = true)
    (hf : 0 ≤ cfg.fee_bps) (hsl : 0 ≤ cfg.slippage_bps)
    (hk1 : cfg.fee_bps + cfg.slippage_bps ≤ 10000) (hl : 0 ≤ cfg.max_leverage) :
    ∀ (bars : List Bar) (i : ℕ) (cash shares : ℚ), 0 ≤ cash → 0 ≤ shares →
      ∀ row ∈ stockLoop cfg d bars i cash shares, 0 ≤ row.Cash ∧ 0 ≤ row.Shares := by
  intro bars
  induction bars with
  | nil =>
    intro i cash shares _ _ row hrow
    simp [stockLoop] at hrow
  | cons b rest ih =>
    intro i cash shares hc hs row hrow
    simp only [stockLoop] at hrow
    have hstep := stockStep_nonneg cfg (clampTarget cfg (d (i - 1))) (execPrice cfg b)
      b.Close cash shares (clampTarget_long_only cfg hlo _) hc hs hf hsl hk1 hl
    rcases List.mem_cons.mp hrow with rfl | hrow'
    · exact hstep
    · exact ih (i + 1) _ _ hstep.1 hstep.2 row hrow'

/-! ### C6 — long-only invariant -/

/-- C6 counterexample: with `long_only = True` but a (≥ 100%) round-trip cost
rate — `fee_bps = 20000`, admissible under the spec's `fee_bps ≥ 0` contract —
the run `buy, sell, buy` drives cash negative on the sell and then records a
ledger row with strictly negative `Shares`: the claim fails for an arbitrary
long-only configuration. -/
theorem C6_long_only_cex :
    cfgC6.long_only = true ∧
      ∃ row ∈ run_stock_backtest cfgC6 barsC6 desC6, row.Shares < 0 := by
  constructor
  · rfl
  · have hrun : run_stock_backtest cfgC6 barsC6 desC6 =
        [{ Cash := 100, Shares := 0, Equity := 100, TradeShares := 0, TradeCost := 0 },
         { Cash := 0, Shares := 100 / 3, Equity := 100 / 3, TradeShares := 100 / 3,
           TradeCost := 200 / 3 },
         { Cash := -100 / 3, Shares := 0, Equity := -100 / 3, TradeShares := -100 / 3,
           TradeCost := 200 / 3 },
         { Cash := 200 / 3, Shares := -100 / 3, Equity := 100 / 3, TradeShares := -100 / 3,
           TradeCost := -200 / 3 }] := by
      norm_num [run_stock_backtest, stockLoop, stockStep, openLong, clampTarget,
        execPrice, trade_cost, cfgC6, barsC6, desC6, unitBar, abs_of_pos]
    rw [hrun]
    exact ⟨⟨200 / 3, -100 / 3, 100 / 3, -100 / 3, -200 / 3⟩, by simp, by norm_num⟩

/-- C6 amended: the long-only invariant holds under the configuration contract
of the spec (`fee_bps ≥ 0`, `slippage_bps ≥ 0`, `max_leverage ≥ 0`,
`initial_cash ≥ 0`) *strengthened by* `fee_bps + slippage_bps ≤ 10000` (round
trip cost at most 100% of notional): every ledger row of `run_stock_backtest`
then has `Shares ≥ 0`, for any bar sequence and any integer desired series. -/
theorem C6_long_only_amended (cfg : BacktestConfig) (bars : List Bar) (desired : ℕ → ℤ)
    (hlo : cfg.long_only = true) (hf : 0 ≤ cfg.fee_bps) (hsl : 0 ≤ cfg.slippage_bps)
    (hk1 : cfg.fee_bps + cfg.slippage_bps ≤ 10000) (hl : 0 ≤ cfg.max_leverage)
    (hic : 0 ≤ cfg.initial_cash) :
    ∀ row ∈ run_stock_backtest cfg bars desired, 0 ≤ row.Shares := by
  intro row hrow
  cases bars with
  | nil => simp [run_stock_backtest] at hrow
  | cons b0 rest =>
    simp only [run_stock_backtest] at hrow
    rcases List.mem_cons.mp hrow with rfl | hrow'
    · exact le_refl 0
    · exact (stockLoop_nonneg cfg desired hlo hf hsl hk1 hl rest 1 cfg.initial_cash 0
        hic (le_refl 0) row hrow').2

/-- Witness for C6's amended theorem: the fully-invested row of a zero-cost
two-bar run has nonnegative shares, by the amended theorem. -/
theorem C6_long_only_amended_witness :
    0 ≤ (StockRow.mk 0 100 100 100 0).Shares := by
  have hrun : run_stock_backtest cfgC2 [unitBar, unitBar] (fun _ => 1) =
      [⟨100, 0, 100, 0, 0⟩, ⟨0, 100, 100, 100, 0⟩] := by
    norm_num [run_stock_backtest, stockLoop, stockStep, openLong, clampTarget, execPrice,
      trade_cost, cfgC2, unitBar]
  exact C6_long_only_amended cfgC2 [unitBar, unitBar] (fun _ => 1) rfl
    (by norm_num [cfgC2]) (by norm_num [cfgC2]) (by norm_num [cfgC2]) (by norm_num [cfgC2])
    (by norm_num [cfgC2]) ⟨0, 100, 100, 100, 0⟩ (by rw [hrun]; simp)

lemma stockLoop_append (cfg : BacktestConfig) (d : ℕ → ℤ) :
    ∀ (xs ys : List Bar) (i : ℕ) (cash shares : ℚ),
      stockLoop cfg d (xs ++ ys) i cash shares =
        stockLoop cfg d xs i cash shares ++
          stockLoop cfg d ys (i + xs.length)
            (stockFinal cfg d xs i (cash, shares)).1
            (stockFinal cfg d xs i (cash, shares)).2 := by
  intro xs
  induction xs with
  | nil =>
    intro ys i cash shares
    simp [stockLoop, stockFinal]
  | cons b rest ih =>
    intro ys i cash shares
    simp only [List.cons_append, stockLoop, stockFinal, List.length_cons, List.append_eq]
    rw [ih]
    have harith : i + 1 + rest.length = i + (rest.length + 1) := by omega
    rw [harith]

/-- Holding a long position through a run of bars whose (lagged, clamped)
targets are all 1 leaves the state unchanged. -/
lemma stockFinal_hold (cfg : BacktestConfig) (d : ℕ → ℤ) :
    ∀ (mids : List Bar) (i : ℕ) (cash shares : ℚ), 0 < shares →
      (∀ j, i ≤ j → j < i + mids.length → clampTarget cfg (d (j - 1)) = 1) →
      stockFinal cfg d mids i (cash, shares) = (cash, shares) := by
  intro mids
  induction mids with
  | nil =>
    intro i cash shares _ _
    simp [stockFinal]
  | cons b rest ih =>
    intro i cash shares hs htar
    simp only [List.length_cons] at htar
    simp only [stockFinal]
    rw [htar i (le_refl i) (by omega), stockStep_hold_long cfg _ _ cash shares hs]
    exact ih (i + 1) cash shares hs (fun j hj1 hj2 => htar j (by omega) (by omega))

lemma lastCashS_cons_cons_concat (r0 r1 : StockRow) (l : List StockRow) (r2 : StockRow) :
    lastCashS (r0 :: r1 :: (l ++ [r2])) = r2.Cash := by
  unfold lastCashS
  rw [List.getLastD_cons, List.getLastD_cons, List.getLastD_eq_getLast?,
    List.getLast?_concat]
  rfl

/-! ### C2 — money conservation -/

/-- C2: with zero fees and slippage and `max_leverage = 1`, a full round trip
— flat, then long at execution price `p`, held through arbitrary intermediate
bars, then sold at execution price `p` — returns final cash exactly equal to
the initial cash. -/
theorem C2_money_conservation (cfg : BacktestConfig) (b0 bBuy bSell : Bar)
    (mids : List Bar) (p : ℚ) (hp : 0 < p)
    (hBuy : execPrice cfg bBuy = p) (hSell : execPrice cfg bSell = p)
    (hfee : cfg.fee_bps = 0) (hslip : cfg.slippage_bps = 0)
    (hlev : cfg.max_leverage = 1) (hcash : 0 < cfg.initial_cash) :
    lastCashS (run_stock_backtest cfg (b0 :: bBuy :: (mids ++ [bSell]))
      (fun j => if j ≤ mids.length then 1 else 0)) = cfg.initial_cash := by
  set c := cfg.initial_cash with hcdef
  set d := (fun j => if j ≤ mids.length then (1 : ℤ) else 0) with hd
  have hk0 : feeRate cfg = 0 := by
    unfold feeRate
    rw [hfee, hslip]
    norm_num
  have hshares_pos : 0 < c / p := div_pos hcash hp
  have hopen := openLong_cash_shares cfg p c hp (le_of_lt hcash) (by rw [hk0])
    (by rw [hlev]; norm_num)
  rw [hk0, hlev] at hopen
  norm_num at hopen
  obtain ⟨hoc, hos⟩ := hopen
  have e1 : run_stock_backtest cfg (b0 :: bBuy :: (mids ++ [bSell])) d =
      { Cash := c, Shares := 0, Equity := c + 0 * b0.Close, TradeShares := 0,
        TradeCost := 0 } :: stockLoop cfg d (bBuy :: (mids ++ [bSell])) 1 c 0 := rfl
  have e2 : ∃ r1, stockLoop cfg d (bBuy :: (mids ++ [bSell])) 1 c 0 =
      r1 :: stockLoop cfg d (mids ++ [bSell]) (1 + 1) 0 (c / p) := by
    refine ⟨stockStep cfg 1 p bBuy.Close c 0, ?_⟩
    simp only [stockLoop]
    rw [show clampTarget cfg (d (1 - 1)) = 1 by
          rw [show d (1 - 1) = 1 by simp [hd]]
          exact clampTarget_one cfg,
        hBuy, stockStep_open_long cfg p bBuy.Close c hp]
    dsimp only
    rw [hoc, hos]
  obtain ⟨r1, e2⟩ := e2
  have hfinal : stockFinal cfg d mids (1 + 1) (0, c / p) = (0, c / p) := by
    apply stockFinal_hold cfg d mids (1 + 1) 0 (c / p) hshares_pos
    intro j hj1 hj2
    rw [show d (j - 1) = 1 by
          have hjle : j - 1 ≤ mids.length := by omega
          simp [hd, hjle]]
    exact clampTarget_one cfg
  have e3 : stockLoop cfg d (mids ++ [bSell]) (1 + 1) 0 (c / p) =
      stockLoop cfg d mids (1 + 1) 0 (c / p) ++
        stockLoop cfg d [bSell] (1 + 1 + mids.length) 0 (c / p) := by
    rw [stockLoop_append cfg d mids [bSell] (1 + 1) 0 (c / p), hfinal]
  have e4 : ∃ r2 : StockRow, stockLoop cfg d [bSell] (1 + 1 + mids.length) 0 (c / p) =
      [r2] ∧ r2.Cash = c := by
    refine ⟨stockStep cfg 0 p bSell.Close 0 (c / p), ?_, ?_⟩
    · simp only [stockLoop]
      rw [show clampTarget cfg (d (1 + 1 + mids.length - 1)) = 0 by
            rw [show d (1 + 1 + mids.length - 1) = 0 by
                  have : ¬(1 + 1 + mids.length - 1 ≤ mids.length) := by omega
                  simp [hd, this]]
            exact clampTarget_zero cfg,
          hSell]
    · rw [stockStep_sell_all cfg p bSell.Close 0 (c / p) hshares_pos hp]
      dsimp only
      rw [hfee, hslip]
      unfold trade_cost
      field_simp
  obtain ⟨r2, e4, hr2⟩ := e4
  rw [e1, e2, e3, e4, lastCashS_cons_cons_concat]
  exact hr2

/-- Witness for C2: a two-bar round trip (buy at bar 1, sell at bar 2) at unit
price with zero costs returns exactly the initial 100. -/
theorem C2_money_conservation_witness :
    lastCashS (run_stock_backtest cfgC2 (unitBar :: unitBar :: (([] : List Bar) ++ [unitBar]))
      (fun j => if j ≤ ([] : List Bar).length then 1 else 0)) = cfgC2.initial_cash :=
  C2_money_conservation cfgC2 unitBar unitBar unitBar [] 1 (by norm_num) rfl rfl rfl rfl rfl
    (by norm_num [cfgC2])

/-! ### C1 — no look-ahead -/

lemma stockLoop_take (cfg : BacktestConfig) (d1 d2 : ℕ → ℤ) :
    ∀ (bars : List Bar) (i m : ℕ) (cash shares : ℚ), 1 ≤ i →
      (∀ j, j + 1 < i + m → d1 j = d2 j) →
      (stockLoop cfg d1 bars i cash shares).take m =
        (stockLoop cfg d2 bars i cash shares).take m := by
  intro bars
  induction bars with
  | nil =>
    intro i m cash shares _ _
    simp [stockLoop]
  | cons b rest ih =>
    intro i m cash shares hi h
    cases m with
    | zero => simp
    | succ m' =>
      simp only [stockLoop, List.take_succ_cons]
      rw [h (i - 1) (by omega)]
      congr 1
      exact ih (i + 1) m' _ _ (by omega) (fun j hj => h j (by omega))

lemma callLoop_take (pricer : Pricer) (cfg : BacktestConfig) (n : ℕ) (d1 d2 : ℕ → ℤ) :
    ∀ (bars : List Bar) (i m : ℕ) (st : CallState), 1 ≤ i →
      (∀ j, j + 1 < i + m → d1 j = d2 j) →
      (callLoop pricer cfg n d1 bars i st).take m =
        (callLoop pricer cfg n d2 bars i st).take m := by
  intro bars
  induction bars with
  | nil =>
    intro i m st _ _
    simp [callLoop]
  | cons b rest ih =>
    intro i m st hi h
    cases m with
    | zero => simp
    | succ m' =>
      simp only [callLoop, List.take_succ_cons]
      rw [h (i - 1) (by omega)]
      congr 1
      exact ih (i + 1) m' _ (by omega) (fun j hj => h j (by omega))

lemma putLoop_take (pricer : Pricer) (cfg : BacktestConfig) (n : ℕ) (d1 d2 : ℕ → ℤ) :
    ∀ (bars : List Bar) (i m : ℕ) (st : PutState), 1 ≤ i →
      (∀ j, j + 1 < i + m → d1 j = d2 j) →
      (putLoop pricer cfg n d1 bars i st).take m =
        (putLoop pricer cfg n d2 bars i st).take m := by
  intro bars
  induction bars with
  | nil =>
    intro i m st _ _
    simp [putLoop]
  | cons b rest ih =>
    intro i m st hi h
    cases m with
    | zero => simp
    | succ m' =>
      simp only [putLoop, List.take_succ_cons]
      rw [h (i - 1) (by omega)]
      congr 1
      exact ih (i + 1) m' _ (by omega) (fun j hj => h j (by omega))

/-- C1: no look-ahead, in all three backtest variants.  The target applied at
bar `i` is read from the desired series at `i - 1`, so whenever two desired
series agree on every bar `< i`, the first `i + 1` ledger rows (bars `0..i`)
coincide; equivalently, mutating desired values at bars `≥ i` never changes
ledger rows `≤ i`.  For the options variants this holds for every pricer. -/
theorem C1_no_lookahead :
    (∀ (cfg : BacktestConfig) (bars : List Bar) (d1 d2 : ℕ → ℤ) (i : ℕ),
      (∀ j, j < i → d1 j = d2 j) →
      (run_stock_backtest cfg bars d1).take (i + 1) =
        (run_stock_backtest cfg bars d2).take (i + 1)) ∧
    (∀ (pricer : Pricer) (cfg : BacktestConfig) (bars : List Bar) (d1 d2 : ℕ → ℤ) (i : ℕ),
      (∀ j, j < i → d1 j = d2 j) →
      (run_long_call_backtest pricer cfg bars d1).take (i + 1) =
        (run_long_call_backtest pricer cfg bars d2).take (i + 1)) ∧
    (∀ (pricer : Pricer) (cfg : BacktestConfig) (bars : List Bar) (d1 d2 : ℕ → ℤ) (i : ℕ),
      (∀ j, j < i → d1 j = d2 j) →
      (run_stock_protective_put_backtest pricer cfg bars d1).take (i + 1) =
        (run_stock_protective_put_backtest pricer cfg bars d2).take (i + 1)) := by
  refine ⟨?_, ?_, ?_⟩
  · intro cfg bars d1 d2 i h
    cases bars with
    | nil => rfl
    | cons b0 rest =>
      simp only [run_stock_backtest, List.take_succ_cons]
      congr 1
      exact stockLoop_take cfg d1 d2 rest 1 i _ _ (le_refl 1) (fun j hj => h j (by omega))
  · intro pricer cfg bars d1 d2 i h
    cases bars with
    | nil => rfl
    | cons b0 rest =>
      simp only [run_long_call_backtest, List.take_succ_cons]
      congr 1
      exact callLoop_take pricer cfg (rest.length + 1) d1 d2 rest 1 i _ (le_refl 1)
        (fun j hj => h j (by omega))
  · intro pricer cfg bars d1 d2 i h
    cases bars with
    | nil => rfl
    | cons b0 rest =>
      simp only [run_stock_protective_put_backtest, List.take_succ_cons]
      congr 1
      exact putLoop_take pricer cfg (rest.length + 1) d1 d2 rest 1 i _ (le_refl 1)
        (fun j hj => h j (by omega))

/-- Witness for C1: two desired series that agree on bar 0 but differ from
bar 1 on, on a two-bar input with the default config, at `i = 1`. -/
theorem C1_no_lookahead_witness :
    (run_stock_backtest { } [unitBar, unitBar] (fun _ => 0)).take 2 =
        (run_stock_backtest { } [unitBar, unitBar] (fun j => if j = 1 then 1 else 0)).take 2 ∧
      (run_long_call_backtest zeroPricer { } [unitBar, unitBar] (fun _ => 0)).take 2 =
        (run_long_call_backtest zeroPricer { } [unitBar, unitBar]
          (fun j => if j = 1 then 1 else 0)).take 2 ∧
      (run_stock_protective_put_backtest zeroPricer { } [unitBar, unitBar]
          (fun _ => 0)).take 2 =
        (run_stock_protective_put_backtest zeroPricer { } [unitBar, unitBar]
          (fun j => if j = 1 then 1 else 0)).take 2 := by
  refine ⟨?_, ?_, ?_⟩
  · exact C1_no_lookahead.1 { } [unitBar, unitBar] (fun _ => 0)
      (fun j => if j = 1 then 1 else 0) 1
      (fun j hj => by
        have hj0 : j = 0 := by omega
        subst hj0
        rfl)
  · exact C1_no_lookahead.2.1 zeroPricer { } [unitBar, unitBar] (fun _ => 0)
      (fun j => if j = 1 then 1 else 0) 1
      (fun j hj => by
        have hj0 : j = 0 := by omega
        subst hj0
        rfl)
  · exact C1_no_lookahead.2.2 zeroPricer { } [unitBar, unitBar] (fun _ => 0)
      (fun j => if j = 1 then 1 else 0) 1
      (fun j hj => by
        have hj0 : j = 0 := by omega
        subst hj0
        rfl)

/-- Witness for C3: leverage cap 2 with zero fees forces the shrink branch at
`cash = 100`, `px = 1`, in both the stock and the protective-put variant. -/
theorem C3_buy_sizing_witness :
    (0 ≤ (stockStep cfgC3 1 1 1 100 0).Cash ∧
      ((100 : ℚ) < 100 * cfgC3.max_leverage * (1 + feeRate cfgC3) →
        (stockStep cfgC3 1 1 1 100 0).Shares * (1 * (1 + feeRate cfgC3)) = 100)) ∧
    (0 ≤ (putStep zeroPricer cfgC3 5 1 2 unitBar flatPutState).1.cash ∧
      (flatPutState.cash < flatPutState.cash * cfgC3.max_leverage * (1 + feeRate cfgC3) →
        (putStep zeroPricer cfgC3 5 1 2 unitBar flatPutState).1.shares *
          (execPrice cfgC3 unitBar * (1 + feeRate cfgC3)) = flatPutState.cash)) :=
  ⟨C3_buy_sizing.1 cfgC3 1 1 100 (by norm_num) (by norm_num) (by norm_num [cfgC3])
      (by norm_num [cfgC3]) (by norm_num [cfgC3]),
    C3_buy_sizing.2 zeroPricer cfgC3 5 2 unitBar flatPutState rfl rfl
      (by norm_num [execPrice, cfgC3, unitBar]) (by norm_num [flatPutState])
      (by norm_num [cfgC3]) (by norm_num [cfgC3]) (by norm_num [cfgC3])⟩

/-! ### Option-step scenario lemmas -/

lemma callSettle_no_call (cfg : BacktestConfig) (i : ℕ) (pxc : ℚ) (st : CallState)
    (h : st.has_call = false) : callSettle cfg i pxc st = st := by
  unfold callSettle
  rw [if_neg]
  rintro ⟨h1, -⟩
  rw [h] at h1
  exact Bool.false_ne_true h1

lemma callSettle_expired (cfg : BacktestConfig) (i : ℕ) (pxc : ℚ) (st : CallState)
    (h1 : st.has_call = true) (h2 : st.expiry_i ≤ (i : ℤ)) :
    callSettle cfg i pxc st =
      { cash := st.cash + max (pxc - st.strike) 0 * (cfg.option_contract_multiplier : ℚ) *
          (callContracts cfg : ℚ),
        has_call := false, strike := 0, expiry_i := -1 } := by
  unfold callSettle
  rw [if_pos ⟨h1, h2⟩]

lemma putSettle_expired (cfg : BacktestConfig) (i : ℕ) (pxc : ℚ) (st : PutState)
    (h1 : st.has_put = true) (h2 : st.put_expiry_i ≤ (i : ℤ)) :
    putSettle cfg i pxc st =
      { st with
        cash := st.cash + max (st.put_strike - pxc) 0 * (cfg.option_contract_multiplier : ℚ),
        has_put := false, put_strike := 0, put_expiry_i := -1 } := by
  unfold putSettle
  rw [if_pos ⟨h1, h2⟩]

/-- The long-call entry bar (raw target 1, no call open): the new state is the
entry state when the full debit fits in cash, and the old state otherwise. -/
lemma callStep_entry_state (pricer : Pricer) (cfg : BacktestConfig) (n i : ℕ) (b : Bar)
    (st : CallState) (h : st.has_call = false) :
    (callStep pricer cfg n 1 i b st).1 =
      if (call_entry_quote pricer cfg (execPrice cfg b) (barSigma b)).2.2 ≤ st.cash then
        { cash := st.cash - (call_entry_quote pricer cfg (execPrice cfg b) (barSigma b)).2.2,
          has_call := true,
          strike := (call_entry_quote pricer cfg (execPrice cfg b) (barSigma b)).1,
          expiry_i := min ((i : ℤ) + (cfg.option_dte_days : ℤ)) ((n : ℤ) - 1) }
      else st := by
  unfold callStep
  dsimp only
  rw [callSettle_no_call cfg i b.Close st h]
  rw [if_pos ⟨by norm_num, h⟩]
  split_ifs <;> rfl

/-! ### C4 — option expiry auto-settlement -/

/-- C4: in both options variants, an open leg whose expiry index has been
reached settles at exactly intrinsic value computed from the bar's close —
`max(S-K,0)·multiplier·contracts` for the call, `max(K-S,0)·multiplier` for
the put — and the leg is cleared; the statement is quantified over *every*
pricer, so the settlement value involves no pricer call.  Moreover, whenever
an entry leaves a leg open, its recorded expiry index is
`min(entry bar + option_dte_days, last bar index)`. -/
theorem C4_expiry_settlement :
    (∀ (pricer : Pricer) (cfg : BacktestConfig) (n i : ℕ) (b : Bar) (st : CallState),
      st.has_call = true → st.expiry_i ≤ (i : ℤ) →
      (callStep pricer cfg n 0 i b st).1.cash =
          st.cash + max (b.Close - st.strike) 0 * (cfg.option_contract_multiplier : ℚ) *
            (callContracts cfg : ℚ) ∧
        (callStep pricer cfg n 0 i b st).1.has_call = false) ∧
    (∀ (pricer : Pricer) (cfg : BacktestConfig) (n i : ℕ) (b : Bar) (st : CallState)
      (target : ℤ), st.has_call = false →
      (callStep pricer cfg n target i b st).1.has_call = true →
      (callStep pricer cfg n target i b st).1.expiry_i =
        min ((i : ℤ) + (cfg.option_dte_days : ℤ)) ((n : ℤ) - 1)) ∧
    (∀ (pricer : Pricer) (cfg : BacktestConfig) (n i : ℕ) (b : Bar) (st : PutState),
      st.has_put = true → st.put_expiry_i ≤ (i : ℤ) → st.shares = 0 →
      (putStep pricer cfg n 0 i b st).1.cash =
          st.cash + max (st.put_strike - b.Close) 0 *
            (cfg.option_contract_multiplier : ℚ) ∧
        (putStep pricer cfg n 0 i b st).1.has_put = false) ∧
    (∀ (pricer : Pricer) (cfg : BacktestConfig) (n i : ℕ) (b : Bar) (st : PutState)
      (target : ℤ), st.has_put = false →
      (putStep pricer cfg n target i b st).1.has_put = true →
      (putStep pricer cfg n target i b st).1.put_expiry_i =
        min ((i : ℤ) + (cfg.option_dte_days : ℤ)) ((n : ℤ) - 1)) := by
  refine ⟨?_, ?_, ?_, ?_⟩
  · intro pricer cfg n i b st h1 h2
    unfold callStep
    dsimp only
    rw [callSettle_expired cfg i b.Close st h1 h2]
    norm_num
  · intro pricer cfg n i b st target h
    unfold callStep
    dsimp only
    rw [callSettle_no_call cfg i b.Close st h]
    by_cases ht : (if target = 1 then (1 : ℤ) else 0) = 1
    · rw [if_pos ⟨ht, h⟩]
      by_cases hq : (call_entry_quote pricer cfg (execPrice cfg b) (barSigma b)).2.2 ≤ st.cash
      · rw [if_pos hq]
        intro _
        rfl
      · rw [if_neg hq]
        dsimp only
        intro hcontra
        rw [h] at hcontra
        exact absurd hcontra (by norm_num)
    · rw [if_neg (by rintro ⟨hc1, -⟩; exact ht hc1)]
      rw [if_neg (by rintro ⟨-, hc2⟩; rw [h] at hc2; exact Bool.false_ne_true hc2)]
      dsimp only
      intro hcontra
      rw [h] at hcontra
      exact absurd hcontra (by norm_num)
  · intro pricer cfg n i b st h1 h2 hsh
    unfold putStep
    dsimp only
    rw [putSettle_expired cfg i b.Close st h1 h2]
    norm_num [hsh]
  · intro pricer cfg n i b st target h
    unfold putStep
    dsimp only
    rw [putSettle_no_put cfg i b.Close st h]
    by_cases ht : (if target = 1 then (1 : ℤ) else 0) = 1
    · by_cases hcur : (if 0 < st.shares then (1 : ℤ) else 0) = 0
      · by_cases hpx : 0 < execPrice cfg b
        · rw [if_pos ⟨ht, hcur, hpx⟩]
          by_cases hq : (put_entry_quote pricer cfg (execPrice cfg b) (barSigma b)).2.2 ≤
              (openLong cfg (execPrice cfg b) st.cash).1
          · rw [if_pos hq]
            intro _
            rfl
          · rw [if_neg hq]
            dsimp only
            intro hcontra
            rw [h] at hcontra
            exact absurd hcontra (by norm_num)
        · rw [if_neg (by rintro ⟨-, -, hc3⟩; exact hpx hc3)]
          rw [if_neg (by rintro ⟨hc1, -, -⟩; rw [ht] at hc1; exact absurd hc1 (by norm_num))]
          dsimp only
          intro hcontra
          rw [h] at hcontra
          exact absurd hcontra (by norm_num)
      · rw [if_neg (by rintro ⟨-, hc2, -⟩; exact hcur hc2)]
        by_cases hrest : (if target = 1 then (1 : ℤ) else 0) = 0 ∧
            (if 0 < st.shares then (1 : ℤ) else 0) = 1 ∧ 0 < execPrice cfg b
        · rw [if_pos hrest]
          by_cases hhp : st.has_put = true
          · rw [h] at hhp
            exact absurd hhp (by norm_num)
          · rw [if_neg hhp]
            dsimp only
            intro hcontra
            rw [h] at hcontra
            exact absurd hcontra (by norm_num)
        · rw [if_neg hrest]
          dsimp only
          intro hcontra
          rw [h] at hcontra
          exact absurd hcontra (by norm_num)
    · rw [if_neg (by rintro ⟨hc1, -, -⟩; exact ht hc1)]
      by_cases hrest : (if target = 1 then (1 : ℤ) else 0) = 0 ∧
          (if 0 < st.shares then (1 : ℤ) else 0) = 1 ∧ 0 < execPrice cfg b
      · rw [if_pos hrest]
        by_cases hhp : st.has_put = true
        · rw [h] at hhp
          exact absurd hhp (by norm_num)
        · rw [if_neg hhp]
          dsimp only
          intro hcontra
          rw [h] at hcontra
          exact absurd hcontra (by norm_num)
      · rw [if_neg hrest]
        dsimp only
        intro hcontra
        rw [h] at hcontra
        exact absurd hcontra (by norm_num)

/-- Witness for C4: concrete settlements and entries.  An expired call with
strike 1 at close 1 settles at intrinsic 0 (cash stays 100); an expired put
with strike 5 at close 1 settles at intrinsic 4 × 100 (cash 100 → 500); both
legs are cleared; fresh entries with the zero pricer record expiry
`min(3 + 30, 5 - 1) = 4`. -/
theorem C4_expiry_settlement_witness :
    ((callStep zeroPricer { } 5 0 3 unitBar ⟨100, true, 1, 2⟩).1.cash = 100 ∧
      (callStep zeroPricer { } 5 0 3 unitBar ⟨100, true, 1, 2⟩).1.has_call = false) ∧
    (callStep zeroPricer { } 5 1 3 unitBar ⟨1000, false, 0, -1⟩).1.expiry_i = 4 ∧
    ((putStep zeroPricer { } 5 0 3 unitBar ⟨100, 0, true, 5, 2⟩).1.cash = 500 ∧
      (putStep zeroPricer { } 5 0 3 unitBar ⟨100, 0, true, 5, 2⟩).1.has_put = false) ∧
    (putStep zeroPricer cfgC2 5 1 3 unitBar ⟨1000, 0, false, 0, -1⟩).1.put_expiry_i = 4 := by
  refine ⟨?_, ?_, ?_, ?_⟩
  · have h := C4_expiry_settlement.1 zeroPricer { } 5 3 unitBar ⟨100, true, 1, 2⟩ rfl
      (by norm_num)
    norm_num [unitBar, callContracts] at h
    exact h
  · have hopen : (callStep zeroPricer { } 5 1 3 unitBar ⟨1000, false, 0, -1⟩).1.has_call =
        true := by
      rw [callStep_entry_state zeroPricer { } 5 3 unitBar ⟨1000, false, 0, -1⟩ rfl,
        if_pos (by norm_num [call_entry_quote, zeroPricer, trade_cost])]
    have h := C4_expiry_settlement.2.1 zeroPricer { } 5 3 unitBar ⟨1000, false, 0, -1⟩ 1
      rfl hopen
    norm_num at h
    exact h
  · have h := C4_expiry_settlement.2.2.1 zeroPricer { } 5 3 unitBar ⟨100, 0, true, 5, 2⟩ rfl
      (by norm_num) rfl
    norm_num [unitBar] at h
    exact h
  · have hopen : (putStep zeroPricer cfgC2 5 1 3 unitBar ⟨1000, 0, false, 0, -1⟩).1.has_put =
        true := by
      rw [putStep_buy_state zeroPricer cfgC2 5 3 unitBar ⟨1000, 0, false, 0, -1⟩ rfl
          (by norm_num) (by norm_num [execPrice, cfgC2, unitBar]),
        if_pos (by norm_num [put_entry_quote, zeroPricer, trade_cost, openLong, cfgC2,
          execPrice, unitBar])]
    have h := C4_expiry_settlement.2.2.2 zeroPricer cfgC2 5 3 unitBar ⟨1000, 0, false, 0, -1⟩
      1 rfl hopen
    norm_num [cfgC2] at h
    exact h

/-! ### C5 — option entry atomicity -/

/-- C5: an option entry occurs exactly when the full debit (premium notional
plus trade cost) fits in available cash; otherwise the entry does not happen
at all — no quantity scale-down.  In the long-call variant cash and the whole
leg state are left unchanged; in the protective-put variant the put leg is
untouched and cash is exactly the post-stock-buy cash. -/
theorem C5_option_entry_atomicity :
    (∀ (pricer : Pricer) (cfg : BacktestConfig) (n i : ℕ) (b : Bar) (st : CallState),
      st.has_call = false →
      (((callStep pricer cfg n 1 i b st).1.has_call = true) ↔
        (call_entry_quote pricer cfg (execPrice cfg b) (barSigma b)).2.2 ≤ st.cash) ∧
      (¬(call_entry_quote pricer cfg (execPrice cfg b) (barSigma b)).2.2 ≤ st.cash →
        (callStep pricer cfg n 1 i b st).1 = st)) ∧
    (∀ (pricer : Pricer) (cfg : BacktestConfig) (n i : ℕ) (b : Bar) (st : PutState),
      st.has_put = false → st.shares = 0 → 0 < execPrice cfg b →
      (((putStep pricer cfg n 1 i b st).1.has_put = true) ↔
        (put_entry_quote pricer cfg (execPrice cfg b) (barSigma b)).2.2 ≤
          (openLong cfg (execPrice cfg b) st.cash).1) ∧
      (¬(put_entry_quote pricer cfg (execPrice cfg b) (barSigma b)).2.2 ≤
          (openLong cfg (execPrice cfg b) st.cash).1 →
        (putStep pricer cfg n 1 i b st).1.cash = (openLong cfg (execPrice cfg b) st.cash).1 ∧
          (putStep pricer cfg n 1 i b st).1.has_put = false ∧
          (putStep pricer cfg n 1 i b st).1.put_strike = st.put_strike ∧
          (putStep pricer cfg n 1 i b st).1.put_expiry_i = st.put_expiry_i)) := by
  constructor
  · intro pricer cfg n i b st h
    rw [callStep_entry_state pricer cfg n i b st h]
    split_ifs with hq
    · refine ⟨?_, fun hn => absurd hq hn⟩
      simpa using hq
    · refine ⟨?_, fun _ => rfl⟩
      simp [h, hq]
  · intro pricer cfg n i b st hput hsh hpx
    rw [putStep_buy_state pricer cfg n i b st hput (by simp [hsh]) hpx]
    split_ifs with hq
    · refine ⟨?_, fun hn => absurd hq hn⟩
      simpa using hq
    · refine ⟨?_, fun _ => ⟨rfl, hput, rfl, rfl⟩⟩
      simp [hput, hq]

/-- Witness for C5: with the zero pricer the call debit 0 fits in cash 1000
(entry occurs), while with the intrinsic pricer on an expensive deep-in-the-
money call (strike 0, spot 1, 1 contract of multiplier 100 costing 100.05 at
default 5 bps costs) the debit exceeds cash 50 and the state is unchanged;
similarly for the protective-put leg. -/
theorem C5_option_entry_atomicity_witness :
    ((callStep zeroPricer { } 5 1 3 unitBar ⟨1000, false, 0, -1⟩).1.has_call = true ↔
      (call_entry_quote zeroPricer { } (execPrice { } unitBar)
        (barSigma unitBar)).2.2 ≤ 1000) ∧
    ((putStep zeroPricer cfgC2 5 1 3 unitBar ⟨1000, 0, false, 0, -1⟩).1.has_put = true ↔
      (put_entry_quote zeroPricer cfgC2 (execPrice cfgC2 unitBar)
        (barSigma unitBar)).2.2 ≤ (openLong cfgC2 (execPrice cfgC2 unitBar) 1000).1) := by
  constructor
  · exact (C5_option_entry_atomicity.1 zeroPricer { } 5 3 unitBar ⟨1000, false, 0, -1⟩
      rfl).1
  · exact (C5_option_entry_atomicity.2 zeroPricer cfgC2 5 3 unitBar ⟨1000, 0, false, 0, -1⟩
      rfl rfl (by norm_num [execPrice, cfgC2, unitBar])).1

/-! ### C8 — drawdown bound -/

lemma drawdowns_ge_neg_one :
    ∀ (es : List ℚ) (peak : ℚ), 0 < peak → (∀ e ∈ es, 0 ≤ e) →
      ∀ dd ∈ drawdowns es peak, -1 ≤ dd := by
  intro es
  induction es with
  | nil =>
    intro peak _ _ dd hdd
    simp [drawdowns] at hdd
  | cons e es ih =>
    intro peak hpeak hall dd hdd
    simp only [drawdowns] at hdd
    have hpe : 0 < max peak e := lt_of_lt_of_le hpeak (le_max_left _ _)
    rcases List.mem_cons.mp hdd with rfl | hdd'
    · have he : 0 ≤ e := hall e (by simp)
      have hdiv : 0 ≤ e / max peak e := div_nonneg he (le_of_lt hpe)
      linarith
    · exact ih (max peak e) hpe (fun x hx => hall x (by simp [hx])) dd hdd'

lemma foldl_min_le_init (l : List ℚ) : ∀ a : ℚ, l.foldl min a ≤ a := by
  induction l with
  | nil =>
    intro a
    exact le_refl a
  | cons b l ih =>
    intro a
    calc (b :: l).foldl min a = l.foldl min (min a b) := rfl
      _ ≤ min a b := ih (min a b)
      _ ≤ a := min_le_left a b

lemma le_foldl_min (l : List ℚ) : ∀ a c : ℚ, c ≤ a → (∀ x ∈ l, c ≤ x) →
    c ≤ l.foldl min a := by
  induction l with
  | nil =>
    intro a c hca _
    exact hca
  | cons b l ih =>
    intro a c hca hall
    calc c ≤ l.foldl min (min a b) := by
          exact ih (min a b) c (le_min hca (hall b (by simp)))
            (fun x hx => hall x (by simp [hx]))
      _ = (b :: l).foldl min a := rfl

/-- For an equity series with a positive first value and nonnegative values
throughout, `max_drawdown` lies in `[-1, 0]`. -/
lemma max_drawdown_bounds (e : ℚ) (es : List ℚ) (he : 0 < e) (hall : ∀ x ∈ es, 0 ≤ x) :
    -1 ≤ max_drawdown (e :: es) ∧ max_drawdown (e :: es) ≤ 0 := by
  have hdd : drawdowns (e :: es) e = 0 :: drawdowns es e := by
    simp only [drawdowns, max_self]
    rw [div_self (ne_of_gt he)]
    norm_num
  unfold max_drawdown
  dsimp only
  rw [hdd]
  dsimp only
  constructor
  · exact le_foldl_min (drawdowns es e) 0 (-1) (by norm_num)
      (drawdowns_ge_neg_one es e he hall)
  · exact foldl_min_le_init (drawdowns es e) 0

/-- C8 counterexample: with `allow_short = True` (explicitly included in the
claim), a short position against a price that multiplies produces negative
equity, and `max_drawdown` of the Equity column is `-9 < -1`: the claimed
lower bound fails. -/
theorem C8_drawdown_cex :
    max_drawdown ((run_stock_backtest cfgC8 barsC8 desC8).map StockRow.Equity) < -1 := by
  have hrun : (run_stock_backtest cfgC8 barsC8 desC8).map StockRow.Equity =
      [100, 100, -800] := by
    norm_num [run_stock_backtest, stockLoop, stockStep, openLong, clampTarget, execPrice,
      trade_cost, cfgC8, barsC8, desC8, unitBar]
  rw [hrun]
  have h1 : max (100 : ℚ) 100 = 100 := max_self 100
  have h2 : max (100 : ℚ) (-800) = 100 := max_eq_left (by norm_num)
  norm_num [max_drawdown, drawdowns, h1, h2]

/-- Every row of a long-only `stockLoop` with valid costs, nonnegative bar
closes, and a nonnegative starting state has nonnegative equity. -/
lemma stockLoop_equity_nonneg (cfg : BacktestConfig) (d : ℕ → ℤ)
    (hlo : cfg.long_only = true) (hf : 0 ≤ cfg.fee_bps) (hsl : 0 ≤ cfg.slippage_bps)
    (hk1 : cfg.fee_bps + cfg.slippage_bps ≤ 10000) (hl : 0 ≤ cfg.max_leverage) :
    ∀ (bars : List Bar) (i : ℕ) (cash shares : ℚ), 0 ≤ cash → 0 ≤ shares →
      (∀ b ∈ bars, 0 ≤ b.Close) →
      ∀ row ∈ stockLoop cfg d bars i cash shares, 0 ≤ row.Equity := by
  intro bars
  induction bars with
  | nil =>
    intro i cash shares _ _ _ row hrow
    simp [stockLoop] at hrow
  | cons b rest ih =>
    intro i cash shares hc hs hcl row hrow
    simp only [stockLoop] at hrow
    have hstep := stockStep_nonneg cfg (clampTarget cfg (d (i - 1))) (execPrice cfg b)
      b.Close cash shares (clampTarget_long_only cfg hlo _) hc hs hf hsl hk1 hl
    rcases List.mem_cons.mp hrow with rfl | hrow'
    · rw [stockStep_equity]
      exact add_nonneg hstep.1 (mul_nonneg hstep.2 (hcl b (by simp)))
    · exact ih (i + 1) _ _ hstep.1 hstep.2 (fun x hx => hcl x (by simp [hx])) row hrow'

/-- A cash balance stays nonnegative after crediting proceeds `p ≥ 0` net of a
proportional cost `p * k` with `0 ≤ k ≤ 1`. -/
lemma cash_credit_nonneg (cash p k : ℚ) (hc : 0 ≤ cash) (hp : 0 ≤ p) (hk : 0 ≤ k)
    (hk1 : k ≤ 1) : 0 ≤ cash + p - p * k := by nlinarith

lemma callContracts_cast_nonneg (cfg : BacktestConfig) :
    (0 : ℚ) ≤ (callContracts cfg : ℚ) := by
  have h1 : (0 : ℤ) ≤ callContracts cfg := le_trans zero_le_one (le_max_right _ _)
  exact_mod_cast h1

/-- Expiry settlement of the call leg only credits cash (the intrinsic value is
a `max` with `0`). -/
lemma callSettle_cash_le (cfg : BacktestConfig) (i : ℕ) (pxc : ℚ) (st : CallState) :
    st.cash ≤ (callSettle cfg i pxc st).cash := by
  unfold callSettle
  split_ifs with h
  · dsimp only
    have hcred : 0 ≤ max (pxc - st.strike) 0 * (cfg.option_contract_multiplier : ℚ) *
        (callContracts cfg : ℚ) :=
      mul_nonneg (mul_nonneg (le_max_right _ _) (Nat.cast_nonneg _))
        (callContracts_cast_nonneg cfg)
    linarith
  · exact le_refl _

/-- The row's Equity in the long-call ledger is always Cash plus OptionValue. -/
lemma callStep_equity_shape (pricer : Pricer) (cfg : BacktestConfig) (n : ℕ)
    (target : ℤ) (i : ℕ) (b : Bar) (st : CallState) :
    (callStep pricer cfg n target i b st).2.Equity =
      (callStep pricer cfg n target i b st).1.cash +
        (callStep pricer cfg n target i b st).2.OptionValue := by
  unfold callStep
  dsimp only

/-- Under a nonnegative pricer, the recorded option value of a long-call row
is nonnegative. -/
lemma callStep_optval_nonneg (pricer : Pricer)
    (hpr : ∀ S K T sg r ty, 0 ≤ pricer S K T sg r ty) (cfg : BacktestConfig) (n : ℕ)
    (target : ℤ) (i : ℕ) (b : Bar) (st : CallState) :
    0 ≤ (callStep pricer cfg n target i b st).2.OptionValue := by
  unfold callStep
  dsimp only
  split_ifs <;>
    first
      | exact le_refl 0
      | exact mul_nonneg (mul_nonneg (hpr _ _ _ _ _ _) (Nat.cast_nonneg _))
          (callContracts_cast_nonneg cfg)

/-- Under a nonnegative pricer and valid costs, one long-call step keeps the
cash balance nonnegative: the entry is guarded by `total ≤ cash`, the exit and
the settlement only credit nonnegative amounts. -/
lemma callStep_cash_nonneg (pricer : Pricer)
    (hpr : ∀ S K T sg r ty, 0 ≤ pricer S K T sg r ty) (cfg : BacktestConfig)
    (hf : 0 ≤ cfg.fee_bps) (hs : 0 ≤ cfg.slippage_bps)
    (hk1 : cfg.fee_bps + cfg.slippage_bps ≤ 10000) (n : ℕ) (target : ℤ) (i : ℕ)
    (b : Bar) (st : CallState) (hc : 0 ≤ st.cash) :
    0 ≤ (callStep pricer cfg n target i b st).1.cash := by
  have hk : 0 ≤ feeRate cfg := feeRate_nonneg cfg hf hs
  have hk1' : feeRate cfg ≤ 1 := by
    unfold feeRate
    linarith
  have hc1 : 0 ≤ (callSettle cfg i b.Close st).cash :=
    le_trans hc (callSettle_cash_le cfg i b.Close st)
  unfold callStep
  dsimp only
  by_cases ht : target = 1
  · cases hhc : (callSettle cfg i b.Close st).has_call with
    | false =>
      norm_num [ht]
      split_ifs with hq
      · dsimp only
        linarith
      · exact hc1
    | true =>
      norm_num [ht]
      exact hc1
  · cases hhc : (callSettle cfg i b.Close st).has_call with
    | false =>
      norm_num [ht]
      exact hc1
    | true =>
      norm_num [ht]
      rw [trade_cost_eq_feeRate, ← sub_nonneg]
      exact cash_credit_nonneg _ _ _ hc1
        (mul_nonneg (mul_nonneg (hpr _ _ _ _ _ _) (Nat.cast_nonneg _))
          (callContracts_cast_nonneg cfg)) hk hk1'

/-- Every row of a long-call loop started from nonnegative cash, under a
nonnegative pricer and valid costs, has nonnegative equity. -/
lemma callLoop_equity_nonneg (pricer : Pricer)
    (hpr : ∀ S K T sg r ty, 0 ≤ pricer S K T sg r ty) (cfg : BacktestConfig)
    (hf : 0 ≤ cfg.fee_bps) (hs : 0 ≤ cfg.slippage_bps)
    (hk1 : cfg.fee_bps + cfg.slippage_bps ≤ 10000) (n : ℕ) (d : ℕ → ℤ) :
    ∀ (bars : List Bar) (i : ℕ) (st : CallState), 0 ≤ st.cash →
      ∀ row ∈ callLoop pricer cfg n d bars i st, 0 ≤ row.Equity := by
  intro bars
  induction bars with
  | nil =>
    intro i st _ row hrow
    simp [callLoop] at hrow
  | cons b rest ih =>
    intro i st hc row hrow
    simp only [callLoop] at hrow
    have hstep := callStep_cash_nonneg pricer hpr cfg hf hs hk1 n (d (i - 1)) i b st hc
    rcases List.mem_cons.mp hrow with rfl | hrow'
    · rw [callStep_equity_shape]
      exact add_nonneg hstep (callStep_optval_nonneg pricer hpr cfg n (d (i - 1)) i b st)
    · exact ih (i + 1) _ hstep row hrow'

/-- Expiry settlement of the put leg only credits cash. -/
lemma putSettle_cash_le (cfg : BacktestConfig) (i : ℕ) (pxc : ℚ) (st : PutState) :
    st.cash ≤ (putSettle cfg i pxc st).cash := by
  unfold putSettle
  split_ifs with h
  · dsimp only
    have hcred : 0 ≤ max (st.put_strike - pxc) 0 * (cfg.option_contract_multiplier : ℚ) :=
      mul_nonneg (le_max_right _ _) (Nat.cast_nonneg _)
    linarith
  · exact le_refl _

/-- Expiry settlement of the put leg leaves the stock position unchanged. -/
lemma putSettle_shares_eq (cfg : BacktestConfig) (i : ℕ) (pxc : ℚ) (st : PutState) :
    (putSettle cfg i pxc st).shares = st.shares := by
  unfold putSettle
  split_ifs <;> rfl

/-- The row's Equity in the protective-put ledger is always Cash plus stock
value at the close plus PutValue. -/
lemma putStep_equity_shape (pricer : Pricer) (cfg : BacktestConfig) (n : ℕ)
    (target : ℤ) (i : ℕ) (b : Bar) (st : PutState) :
    (putStep pricer cfg n target i b st).2.Equity =
      (putStep pricer cfg n target i b st).1.cash +
        (putStep pricer cfg n target i b st).1.shares * b.Close +
        (putStep pricer cfg n target i b st).2.PutValue := by
  unfold putStep
  dsimp only

/-- Under a nonnegative pricer, the recorded put value of a protective-put row
is nonnegative. -/
lemma putStep_putval_nonneg (pricer : Pricer)
    (hpr : ∀ S K T sg r ty, 0 ≤ pricer S K T sg r ty) (cfg : BacktestConfig) (n : ℕ)
    (target : ℤ) (i : ℕ) (b : Bar) (st : PutState) :
    0 ≤ (putStep pricer cfg n target i b st).2.PutValue := by
  unfold putStep
  dsimp only
  split_ifs <;>
    first
      | exact le_refl 0
      | exact mul_nonneg (hpr _ _ _ _ _ _) (Nat.cast_nonneg _)

/-- Under a nonnegative pricer and valid costs, one protective-put step keeps
both the cash balance and the stock position nonnegative. -/
lemma putStep_cash_shares_nonneg (pricer : Pricer)
    (hpr : ∀ S K T sg r ty, 0 ≤ pricer S K T sg r ty) (cfg : BacktestConfig)
    (hf : 0 ≤ cfg.fee_bps) (hs : 0 ≤ cfg.slippage_bps)
    (hk1 : cfg.fee_bps + cfg.slippage_bps ≤ 10000) (hl : 0 ≤ cfg.max_leverage)
    (n : ℕ) (target : ℤ) (i : ℕ) (b : Bar) (st : PutState)
    (hc : 0 ≤ st.cash) (hsh : 0 ≤ st.shares) :
    0 ≤ (putStep pricer cfg n target i b st).1.cash ∧
      0 ≤ (putStep pricer cfg n target i b st).1.shares := by
  have hk : 0 ≤ feeRate cfg := feeRate_nonneg cfg hf hs
  have hk1' : feeRate cfg ≤ 1 := by
    unfold feeRate
    linarith
  have hc1 : 0 ≤ (putSettle cfg i b.Close st).cash :=
    le_trans hc (putSettle_cash_le cfg i b.Close st)
  have hsh1 : 0 ≤ (putSettle cfg i b.Close st).shares := by
    rw [putSettle_shares_eq]
    exact hsh
  unfold putStep
  dsimp only
  by_cases ht : target = 1
  · by_cases hcur : 0 < (putSettle cfg i b.Close st).shares
    · norm_num [ht, hcur]
      exact ⟨hc1, hsh1⟩
    · norm_num [ht, hcur]
      split_ifs with hpx hq
      · dsimp only
        constructor
        · linarith
        · exact add_nonneg hsh1
            (openLong_shares_nonneg cfg (execPrice cfg b) _ hpx hc1 hk hl)
      · dsimp only
        constructor
        · exact openLong_cash_nonneg cfg (execPrice cfg b) _ hpx hc1 hk hl
        · exact add_nonneg hsh1
            (openLong_shares_nonneg cfg (execPrice cfg b) _ hpx hc1 hk hl)
      · exact ⟨hc1, hsh1⟩
  · by_cases hcur : 0 < (putSettle cfg i b.Close st).shares
    · norm_num [ht, hcur]
      split_ifs with hpx hput
      · dsimp only
        constructor
        · simp only [trade_cost_eq_feeRate]
          exact cash_credit_nonneg _ _ _
            (cash_credit_nonneg _ _ _ hc1 (mul_nonneg hsh1 (le_of_lt hpx)) hk hk1')
            (mul_nonneg (hpr _ _ _ _ _ _) (Nat.cast_nonneg _)) hk hk1'
        · exact le_refl 0
      · dsimp only
        constructor
        · simp only [trade_cost_eq_feeRate]
          exact cash_credit_nonneg _ _ _ hc1 (mul_nonneg hsh1 (le_of_lt hpx)) hk hk1'
        · exact le_refl 0
      · exact ⟨hc1, hsh1⟩
    · norm_num [ht, hcur]
      exact ⟨hc1, hsh1⟩

/-- Every row of a protective-put loop started from nonnegative cash and
shares, under a nonnegative pricer, valid costs and nonnegative closes, has
nonnegative equity. -/
lemma putLoop_equity_nonneg (pricer : Pricer)
    (hpr : ∀ S K T sg r ty, 0 ≤ pricer S K T sg r ty) (cfg : BacktestConfig)
    (hf : 0 ≤ cfg.fee_bps) (hs : 0 ≤ cfg.slippage_bps)
    (hk1 : cfg.fee_bps + cfg.slippage_bps ≤ 10000) (hl : 0 ≤ cfg.max_leverage)
    (n : ℕ) (d : ℕ → ℤ) :
    ∀ (bars : List Bar) (i : ℕ) (st : PutState), 0 ≤ st.cash → 0 ≤ st.shares →
      (∀ b ∈ bars, 0 ≤ b.Close) →
      ∀ row ∈ putLoop pricer cfg n d bars i st, 0 ≤ row.Equity := by
  intro bars
  induction bars with
  | nil =>
    intro i st _ _ _ row hrow
    simp [putLoop] at hrow
  | cons b rest ih =>
    intro i st hc hsh hcl row hrow
    simp only [putLoop] at hrow
    have hstep := putStep_cash_shares_nonneg pricer hpr cfg hf hs hk1 hl n (d (i - 1))
      i b st hc hsh
    rcases List.mem_cons.mp hrow with rfl | hrow'
    · rw [putStep_equity_shape]
      refine add_nonneg (add_nonneg hstep.1 (mul_nonneg hstep.2 (hcl b (by simp)))) ?_
      exact putStep_putval_nonneg pricer hpr cfg n (d (i - 1)) i b st
    · exact ih (i + 1) _ hstep.1 hstep.2 (fun x hx => hcl x (by simp [hx])) row hrow'

/-- C8 amended: the claimed bound `max_drawdown ∈ [-1, 0]` fails with
`allow_short` (see the counterexample), but holds for all three variants under
the configuration contract strengthened by `fee_bps + slippage_bps ≤ 10000`
and positive initial cash: (1) for `run_stock_backtest` restricted to
long-only runs with nonnegative closes; (2) for `run_long_call_backtest` under
any nonnegative pricer; (3) for `run_stock_protective_put_backtest` under any
nonnegative pricer, with nonnegative leverage cap and nonnegative closes.  In
each case equity cannot go negative, so every drawdown stays in `[-1, 0]`. -/
theorem C8_drawdown_amended :
    (∀ (cfg : BacktestConfig) (bars : List Bar) (desired : ℕ → ℤ),
      cfg.long_only = true → 0 ≤ cfg.fee_bps → 0 ≤ cfg.slippage_bps →
      cfg.fee_bps + cfg.slippage_bps ≤ 10000 → 0 ≤ cfg.max_leverage →
      0 < cfg.initial_cash → (∀ b ∈ bars, 0 ≤ b.Close) →
      -1 ≤ max_drawdown ((run_stock_backtest cfg bars desired).map StockRow.Equity) ∧
        max_drawdown ((run_stock_backtest cfg bars desired).map StockRow.Equity) ≤ 0) ∧
    (∀ (pricer : Pricer) (cfg : BacktestConfig) (bars : List Bar) (desired : ℕ → ℤ),
      (∀ S K T sg r ty, 0 ≤ pricer S K T sg r ty) →
      0 ≤ cfg.fee_bps → 0 ≤ cfg.slippage_bps → cfg.fee_bps + cfg.slippage_bps ≤ 10000 →
      0 < cfg.initial_cash →
      -1 ≤ max_drawdown
          ((run_long_call_backtest pricer cfg bars desired).map CallRow.Equity) ∧
        max_drawdown
          ((run_long_call_backtest pricer cfg bars desired).map CallRow.Equity) ≤ 0) ∧
    (∀ (pricer : Pricer) (cfg : BacktestConfig) (bars : List Bar) (desired : ℕ → ℤ),
      (∀ S K T sg r ty, 0 ≤ pricer S K T sg r ty) →
      0 ≤ cfg.fee_bps → 0 ≤ cfg.slippage_bps → cfg.fee_bps + cfg.slippage_bps ≤ 10000 →
      0 ≤ cfg.max_leverage → 0 < cfg.initial_cash → (∀ b ∈ bars, 0 ≤ b.Close) →
      -1 ≤ max_drawdown
          ((run_stock_protective_put_backtest pricer cfg bars desired).map PutRow.Equity) ∧
        max_drawdown
          ((run_stock_protective_put_backtest pricer cfg bars desired).map
            PutRow.Equity) ≤ 0) := by
  refine ⟨?_, ?_, ?_⟩
  · intro cfg bars desired hlo hf hsl hk1 hl hic hcl
    cases bars with
    | nil =>
      simp [run_stock_backtest, max_drawdown]
    | cons b0 rest =>
      have hmap : (run_stock_backtest cfg (b0 :: rest) desired).map StockRow.Equity =
          (cfg.initial_cash + 0 * b0.Close) ::
            (stockLoop cfg desired rest 1 cfg.initial_cash 0).map StockRow.Equity := rfl
      rw [hmap]
      have he0 : cfg.initial_cash + 0 * b0.Close = cfg.initial_cash := by ring
      rw [he0]
      apply max_drawdown_bounds cfg.initial_cash _ hic
      intro x hx
      rcases List.mem_map.mp hx with ⟨row, hrow, rfl⟩
      exact stockLoop_equity_nonneg cfg desired hlo hf hsl hk1 hl rest 1 cfg.initial_cash 0
        (le_of_lt hic) (le_refl 0) (fun b hb => hcl b (by simp [hb])) row hrow
  · intro pricer cfg bars desired hpr hf hsl hk1 hic
    cases bars with
    | nil =>
      simp [run_long_call_backtest, max_drawdown]
    | cons b0 rest =>
      have hmap : (run_long_call_backtest pricer cfg (b0 :: rest) desired).map
          CallRow.Equity =
          cfg.initial_cash ::
            (callLoop pricer cfg (rest.length + 1) desired rest 1
              { cash := cfg.initial_cash, has_call := false, strike := 0,
                expiry_i := -1 }).map CallRow.Equity := rfl
      rw [hmap]
      apply max_drawdown_bounds cfg.initial_cash _ hic
      intro x hx
      rcases List.mem_map.mp hx with ⟨row, hrow, rfl⟩
      exact callLoop_equity_nonneg pricer hpr cfg hf hsl hk1 (rest.length + 1) desired
        rest 1 _ (le_of_lt hic) row hrow
  · intro pricer cfg bars desired hpr hf hsl hk1 hl hic hcl
    cases bars with
    | nil =>
      simp [run_stock_protective_put_backtest, max_drawdown]
    | cons b0 rest =>
      have hmap : (run_stock_protective_put_backtest pricer cfg (b0 :: rest) desired).map
          PutRow.Equity =
          cfg.initial_cash ::
            (putLoop pricer cfg (rest.length + 1) desired rest 1
              { cash := cfg.initial_cash, shares := 0, has_put := false, put_strike := 0,
                put_expiry_i := -1 }).map PutRow.Equity := rfl
      rw [hmap]
      apply max_drawdown_bounds cfg.initial_cash _ hic
      intro x hx
      rcases List.mem_map.mp hx with ⟨row, hrow, rfl⟩
      exact putLoop_equity_nonneg pricer hpr cfg hf hsl hk1 hl (rest.length + 1) desired
        rest 1 _ (le_of_lt hic) (le_refl 0) (fun b hb => hcl b (by simp [hb])) row hrow

/-- Witness for C8's amended theorem: the default config on two unit bars with
a constant buy signal, for each of the three variants; the options variants
are instantiated with the zero pricer, which is trivially nonnegative. -/
theorem C8_drawdown_amended_witness :
    (-1 ≤ max_drawdown ((run_stock_backtest { } [unitBar, unitBar]
        (fun _ => 1)).map StockRow.Equity) ∧
      max_drawdown ((run_stock_backtest { } [unitBar, unitBar]
        (fun _ => 1)).map StockRow.Equity) ≤ 0) ∧
    (-1 ≤ max_drawdown ((run_long_call_backtest zeroPricer { } [unitBar, unitBar]
        (fun _ => 1)).map CallRow.Equity) ∧
      max_drawdown ((run_long_call_backtest zeroPricer { } [unitBar, unitBar]
        (fun _ => 1)).map CallRow.Equity) ≤ 0) ∧
    (-1 ≤ max_drawdown ((run_stock_protective_put_backtest zeroPricer { }
        [unitBar, unitBar] (fun _ => 1)).map PutRow.Equity) ∧
      max_drawdown ((run_stock_protective_put_backtest zeroPricer { }
        [unitBar, unitBar] (fun _ => 1)).map PutRow.Equity) ≤ 0) := by
  have hcl : ∀ b ∈ [unitBar, unitBar], 0 ≤ b.Close := by
    intro b hb
    rcases List.mem_cons.mp hb with rfl | hb'
    · norm_num [unitBar]
    · rcases List.mem_cons.mp hb' with rfl | hb''
      · norm_num [unitBar]
      · simp at hb''
  have hpr : ∀ S K T sg r ty, 0 ≤ zeroPricer S K T sg r ty := by
    intro S K T sg r ty
    exact le_refl 0
  exact ⟨C8_drawdown_amended.1 { } [unitBar, unitBar] (fun _ => 1) rfl (by norm_num)
      (by norm_num) (by norm_num) (by norm_num) (by norm_num) hcl,
    C8_drawdown_amended.2.1 zeroPricer { } [unitBar, unitBar] (fun _ => 1) hpr
      (by norm_num) (by norm_num) (by norm_num) (by norm_num),
    C8_drawdown_amended.2.2 zeroPricer { } [unitBar, unitBar] (fun _ => 1) hpr
      (by norm_num) (by norm_num) (by norm_num) (by norm_num) (by norm_num) hcl⟩

/-! ### C7 — cost monotonicity: toolkit -/

lemma openLong_zero (cfg : BacktestConfig) (px : ℚ) : openLong cfg px 0 = (0, 0, 0) := by
  unfold openLong trade_cost
  norm_num

lemma openLong_lev_zero (cfg : BacktestConfig) (px cash : ℚ) (hc : 0 ≤ cash)
    (hL : cfg.max_leverage = 0) : openLong cfg px cash = (cash, 0, 0) := by
  simp only [openLong, trade_cost]
  rw [hL]
  rw [show cash * 0 / px * px + cash * 0 / px * px * (cfg.fee_bps + cfg.slippage_bps) / 10000
      = 0 from by simp]
  rw [if_neg (not_lt.mpr hc)]
  simp

lemma dominates_equity_lt (A B : ℚ × ℚ) (h : Dominates A B) (pxc : ℚ) (hpxc : 0 < pxc) :
    B.1 + B.2 * pxc < A.1 + A.2 * pxc := by
  obtain ⟨hB1, hB2, h1, h2, hstrict, -⟩ := h
  rcases hstrict with hlt | hlt
  · nlinarith
  · nlinarith

lemma getLastD_cons_of_ne (l : List StockRow) (hl : l ≠ []) (a d : StockRow) :
    (a :: l).getLastD d = l.getLastD d := by
  cases l with
  | nil => exact absurd rfl hl
  | cons b m => simp [List.getLastD_cons]

lemma stockLoop_length (cfg : BacktestConfig) (d : ℕ → ℤ) :
    ∀ (bars : List Bar) (i : ℕ) (c s : ℚ),
      (stockLoop cfg d bars i c s).length = bars.length := by
  intro bars
  induction bars with
  | nil =>
    intro i c s
    rfl
  | cons b rest ih =>
    intro i c s
    simp only [stockLoop, List.length_cons]
    rw [ih]

lemma stockLoop_ne_nil (cfg : BacktestConfig) (d : ℕ → ℤ) (bars : List Bar) (i : ℕ)
    (c s : ℚ) (h : bars ≠ []) : stockLoop cfg d bars i c s ≠ [] := by
  intro hcon
  apply h
  have hlen := stockLoop_length cfg d bars i c s
  rw [hcon] at hlen
  exact List.length_eq_zero.mp hlen.symm

lemma lastEquityS_cons_of_ne (a : StockRow) (l : List StockRow) (hl : l ≠ []) :
    lastEquityS (a :: l) = lastEquityS l := by
  unfold lastEquityS
  rw [getLastD_cons_of_ne l hl]

lemma lastEquityS_singleton (a : StockRow) : lastEquityS [a] = a.Equity := rfl

/-- One step preserves state domination between a lower-fee run (A) and a
higher-fee run (B) of the same long-only configuration on the same bar. -/
lemma stockStep_dominates (cfg : BacktestConfig) (fA sA fB sB : ℚ) (hfA : 0 ≤ fA)
    (hsA : 0 ≤ sA) (hlt : fA + sA < fB + sB) (hk1 : fB + sB ≤ 10000)
    (hl : 0 ≤ cfg.max_leverage) (t : ℤ) (ht : t = 0 ∨ t = 1) (px pxc : ℚ) (hpx : 0 < px)
    (A B : ℚ × ℚ) (h : Dominates A B) :
    Dominates
      ((stockStep { cfg with fee_bps := fA, slippage_bps := sA } t px pxc A.1 A.2).Cash,
        (stockStep { cfg with fee_bps := fA, slippage_bps := sA } t px pxc A.1 A.2).Shares)
      ((stockStep { cfg with fee_bps := fB, slippage_bps := sB } t px pxc B.1 B.2).Cash,
        (stockStep { cfg with fee_bps := fB, slippage_bps := sB } t px pxc B.1 B.2).Shares) := by
  obtain ⟨a1, a2⟩ := A
  obtain ⟨b1, b2⟩ := B
  obtain ⟨hB1, hB2, h1, h2, hstrict, hsign⟩ := h
  dsimp only at hB1 hB2 h1 h2 hstrict hsign ⊢
  set cfgA := { cfg with fee_bps := fA, slippage_bps := sA } with hcfgA
  set cfgB := { cfg with fee_bps := fB, slippage_bps := sB } with hcfgB
  have hA1 : 0 ≤ a1 := le_trans hB1 h1
  have hA2 : 0 ≤ a2 := le_trans hB2 h2
  have hkA : feeRate cfgA = (fA + sA) / 10000 := rfl
  have hkB : feeRate cfgB = (fB + sB) / 10000 := rfl
  have hkA0 : 0 ≤ feeRate cfgA := by
    rw [hkA]
    positivity
  have hkB0 : 0 ≤ feeRate cfgB := by
    rw [hkB]
    have hfb : 0 ≤ fB + sB := by linarith
    positivity
  have hkAB : feeRate cfgA < feeRate cfgB := by
    rw [hkA, hkB]
    linarith
  have hkB1 : feeRate cfgB ≤ 1 := by
    rw [hkB]
    linarith
  have hkA1 : feeRate cfgA < 1 := lt_of_lt_of_le hkAB hkB1
  have hlevA : cfgA.max_leverage = cfg.max_leverage := rfl
  have hlevB : cfgB.max_leverage = cfg.max_leverage := rfl
  rcases eq_or_lt_of_le hB2 with hB2z | hB2pos
  · -- B holds no shares
    have hB2' : b2 = 0 := hB2z.symm
    subst hB2'
    rcases eq_or_lt_of_le hA2 with hA2z | hA2pos
    · -- neither run holds shares; the strict component must be cash
      have hA2' : a2 = 0 := hA2z.symm
      subst hA2'
      have hstrict' : b1 < a1 := by
        rcases hstrict with h' | h'
        · exact h'
        · exact absurd h' (lt_irrefl 0)
      rcases ht with rfl | rfl
      · -- flat, target flat: no trades
        rw [stockStep_hold_flat cfgA px pxc a1, stockStep_hold_flat cfgB px pxc b1]
        exact ⟨hB1, le_refl 0, h1, le_refl 0, Or.inl hstrict',
          fun h0 => absurd h0 (lt_irrefl 0)⟩
      · -- both buy
        rw [stockStep_open_long cfgA px pxc a1 hpx, stockStep_open_long cfgB px pxc b1 hpx]
        dsimp only
        obtain ⟨hAc, hAs⟩ := openLong_cash_shares cfgA px a1 hpx hA1 hkA0
          (by rw [hlevA]; exact hl)
        obtain ⟨hBc, hBs⟩ := openLong_cash_shares cfgB px b1 hpx hB1 hkB0
          (by rw [hlevB]; exact hl)
        rw [hAc, hAs, hBc, hBs]
        simp only [hlevA, hlevB]
        unfold Dominates
        dsimp only
        have h1kA : (0 : ℚ) < 1 + feeRate cfgA := by linarith
        have h1kB : (0 : ℚ) < 1 + feeRate cfgB := by linarith
        have hMB0 : 0 ≤ max (1 - cfg.max_leverage * (1 + feeRate cfgB)) 0 :=
          le_max_right _ 0
        have hmB0 : 0 ≤ min cfg.max_leverage (1 / (1 + feeRate cfgB)) :=
          le_min hl (by positivity)
        have hM : max (1 - cfg.max_leverage * (1 + feeRate cfgB)) 0 ≤
            max (1 - cfg.max_leverage * (1 + feeRate cfgA)) 0 := by
          apply max_le_max _ (le_refl 0)
          nlinarith
        have hm : min cfg.max_leverage (1 / (1 + feeRate cfgB)) ≤
            min cfg.max_leverage (1 / (1 + feeRate cfgA)) := by
          apply min_le_min (le_refl _)
          exact one_div_le_one_div_of_le h1kA (by linarith)
        refine ⟨mul_nonneg hB1 hMB0, div_nonneg (mul_nonneg hB1 hmB0) hpx.le,
          mul_le_mul h1 hM hMB0 hA1,
          (div_le_div_right hpx).mpr (mul_le_mul h1 hm hmB0 hA1), ?_, ?_⟩
        · by_cases hLz : cfg.max_leverage = 0
          · left
            rw [hLz]
            simp only [zero_mul, sub_zero, zero_div]
            rw [max_eq_left (by norm_num : (0 : ℚ) ≤ 1)]
            simpa using hstrict'
          · right
            have hLpos : 0 < cfg.max_leverage := lt_of_le_of_ne hl (Ne.symm hLz)
            have hmA0 : 0 < min cfg.max_leverage (1 / (1 + feeRate cfgA)) :=
              lt_min hLpos (by positivity)
            apply (div_lt_div_right hpx).mpr
            calc b1 * min cfg.max_leverage (1 / (1 + feeRate cfgB)) ≤
                b1 * min cfg.max_leverage (1 / (1 + feeRate cfgA)) :=
                  mul_le_mul_of_nonneg_left hm hB1
              _ < a1 * min cfg.max_leverage (1 / (1 + feeRate cfgA)) :=
                  mul_lt_mul_of_pos_right hstrict' hmA0
        · intro hApos hBz
          have hb1mB : b1 * min cfg.max_leverage (1 / (1 + feeRate cfgB)) = 0 := by
            rcases div_eq_zero_iff.mp hBz with h' | h'
            · exact h'
            · exact absurd h' (ne_of_gt hpx)
          rcases mul_eq_zero.mp hb1mB with hb10 | hmB0'
          · rw [hb10, zero_mul]
          · exfalso
            rcases le_or_lt cfg.max_leverage (1 / (1 + feeRate cfgB)) with hle | hlt'
            · have hL0 : cfg.max_leverage = 0 := by
                rw [min_eq_left hle] at hmB0'
                exact hmB0'
              rw [hL0] at hApos
              rw [min_eq_left (by positivity : (0:ℚ) ≤ 1 / (1 + feeRate cfgA))] at hApos
              simp at hApos
            · rw [min_eq_right (le_of_lt hlt')] at hmB0'
              have : (0 : ℚ) < 1 / (1 + feeRate cfgB) := by positivity
              rw [hmB0'] at this
              exact lt_irrefl 0 this
    · -- B flat, A long: B must be broke
      have hb10 : b1 = 0 := hsign hA2pos rfl
      subst hb10
      rcases ht with rfl | rfl
      · -- A sells everything, B stays flat
        rw [stockStep_sell_all cfgA px pxc a1 a2 hA2pos hpx, stockStep_hold_flat cfgB px pxc 0]
        dsimp only
        rw [show trade_cost (a2 * px) fA sA = a2 * px * feeRate cfgA from
          trade_cost_eq_feeRate cfgA (a2 * px)]
        have hpos : 0 < a1 + a2 * px - a2 * px * feeRate cfgA := by
          nlinarith [mul_pos hA2pos hpx]
        exact ⟨le_refl 0, le_refl 0, le_of_lt hpos, le_refl 0, Or.inl hpos,
          fun h0 => absurd h0 (lt_irrefl 0)⟩
      · -- A holds, B tries to buy with zero cash
        rw [stockStep_hold_long cfgA px pxc a1 a2 hA2pos,
          stockStep_open_long cfgB px pxc 0 hpx, openLong_zero cfgB px]
        dsimp only
        exact ⟨le_refl 0, le_refl 0, hA1, hA2, Or.inr hA2pos, fun _ _ => rfl⟩
  · -- both runs hold shares
    have hA2pos : 0 < a2 := lt_of_lt_of_le hB2pos h2
    rcases ht with rfl | rfl
    · -- both sell
      rw [stockStep_sell_all cfgA px pxc a1 a2 hA2pos hpx,
        stockStep_sell_all cfgB px pxc b1 b2 hB2pos hpx]
      dsimp only
      rw [show trade_cost (a2 * px) fA sA = a2 * px * feeRate cfgA from
          trade_cost_eq_feeRate cfgA (a2 * px),
        show trade_cost (b2 * px) fB sB = b2 * px * feeRate cfgB from
          trade_cost_eq_feeRate cfgB (b2 * px)]
      unfold Dominates
      dsimp only
      have e1 : b2 * px ≤ a2 * px := mul_le_mul_of_nonneg_right h2 hpx.le
      have e2 : b2 * px * (1 - feeRate cfgB) ≤ a2 * px * (1 - feeRate cfgA) :=
        mul_le_mul e1 (by linarith) (by linarith) (mul_nonneg hA2 hpx.le)
      refine ⟨?_, le_refl 0, by nlinarith, le_refl 0, Or.inl ?_,
        fun h0 => absurd h0 (lt_irrefl 0)⟩
      · nlinarith [mul_nonneg (mul_nonneg hB2 hpx.le) (sub_nonneg.mpr hkB1)]
      · rcases hstrict with hcl | hsl
        · nlinarith
        · have e3 : b2 * px * (1 - feeRate cfgB) < a2 * px * (1 - feeRate cfgA) := by
            calc b2 * px * (1 - feeRate cfgB) ≤ b2 * px * (1 - feeRate cfgA) :=
                mul_le_mul_of_nonneg_left (by linarith) (mul_nonneg hB2 hpx.le)
              _ < a2 * px * (1 - feeRate cfgA) :=
                mul_lt_mul_of_pos_right (mul_lt_mul_of_pos_right hsl hpx)
                  (by linarith)
          nlinarith
    · -- both hold
      rw [stockStep_hold_long cfgA px pxc a1 a2 hA2pos,
        stockStep_hold_long cfgB px pxc b1 b2 hB2pos]
      exact ⟨hB1, hB2, h1, h2, hstrict, hsign⟩

set_option maxHeartbeats 1000000 in
/-- From equal states, one bar either trades nothing in both runs and leaves
identical rows, or trades in both with nonzero flow in the lower-fee run and
leaves the lower-fee state strictly dominating. -/
lemma stockStep_sync (cfg : BacktestConfig) (fA sA fB sB : ℚ) (hfA : 0 ≤ fA)
    (hsA : 0 ≤ sA) (hlt : fA + sA < fB + sB) (hk1 : fB + sB ≤ 10000)
    (hl : 0 ≤ cfg.max_leverage) (t : ℤ) (ht : t = 0 ∨ t = 1) (px pxc : ℚ) (hpx : 0 < px)
    (c s : ℚ) (hc : 0 ≤ c) (hs : 0 ≤ s) :
    (stockStep { cfg with fee_bps := fA, slippage_bps := sA } t px pxc c s =
        stockStep { cfg with fee_bps := fB, slippage_bps := sB } t px pxc c s ∧
      (stockStep { cfg with fee_bps := fA, slippage_bps := sA } t px pxc c s).TradeShares =
        0) ∨
    ((stockStep { cfg with fee_bps := fA, slippage_bps := sA } t px pxc c s).TradeShares ≠
        0 ∧
      Dominates
        ((stockStep { cfg with fee_bps := fA, slippage_bps := sA } t px pxc c s).Cash,
          (stockStep { cfg with fee_bps := fA, slippage_bps := sA } t px pxc c s).Shares)
        ((stockStep { cfg with fee_bps := fB, slippage_bps := sB } t px pxc c s).Cash,
          (stockStep { cfg with fee_bps := fB, slippage_bps := sB } t px pxc c s).Shares)) := by
  set cfgA := { cfg with fee_bps := fA, slippage_bps := sA } with hcfgA
  set cfgB := { cfg with fee_bps := fB, slippage_bps := sB } with hcfgB
  have hkA : feeRate cfgA = (fA + sA) / 10000 := rfl
  have hkB : feeRate cfgB = (fB + sB) / 10000 := rfl
  have hkA0 : 0 ≤ feeRate cfgA := by
    rw [hkA]
    positivity
  have hkB0 : 0 ≤ feeRate cfgB := by
    rw [hkB]
    have hfb : 0 ≤ fB + sB := by linarith
    positivity
  have hkAB : feeRate cfgA < feeRate cfgB := by
    rw [hkA, hkB]
    linarith
  have hkB1 : feeRate cfgB ≤ 1 := by
    rw [hkB]
    linarith
  have hkA1 : feeRate cfgA < 1 := lt_of_lt_of_le hkAB hkB1
  have h1kA : (0 : ℚ) < 1 + feeRate cfgA := by linarith
  have h1kB : (0 : ℚ) < 1 + feeRate cfgB := by linarith
  rcases eq_or_lt_of_le hs with hs0 | hspos
  · -- flat state
    have hs0' : s = 0 := hs0.symm
    subst hs0'
    rcases ht with rfl | rfl
    · left
      rw [stockStep_hold_flat cfgA px pxc c, stockStep_hold_flat cfgB px pxc c]
      exact ⟨rfl, rfl⟩
    · rw [stockStep_open_long cfgA px pxc c hpx, stockStep_open_long cfgB px pxc c hpx]
      by_cases hcz : c = 0
      · subst hcz
        left
        rw [openLong_zero cfgA px, openLong_zero cfgB px]
        exact ⟨rfl, by norm_num⟩
      · have hcpos : 0 < c := lt_of_le_of_ne hc (Ne.symm hcz)
        by_cases hLz : cfg.max_leverage = 0
        · left
          rw [openLong_lev_zero cfgA px c hc hLz, openLong_lev_zero cfgB px c hc hLz]
          exact ⟨rfl, by norm_num⟩
        · have hLpos : 0 < cfg.max_leverage := lt_of_le_of_ne hl (Ne.symm hLz)
          right
          obtain ⟨hAc, hAs⟩ := openLong_cash_shares cfgA px c hpx hc hkA0 hl
          obtain ⟨hBc, hBs⟩ := openLong_cash_shares cfgB px c hpx hc hkB0 hl
          have hmA0 : 0 < min cfg.max_leverage (1 / (1 + feeRate cfgA)) :=
            lt_min hLpos (by positivity)
          have hmB0 : 0 < min cfg.max_leverage (1 / (1 + feeRate cfgB)) :=
            lt_min hLpos (by positivity)
          have hMB0 : 0 ≤ max (1 - cfg.max_leverage * (1 + feeRate cfgB)) 0 :=
            le_max_right _ 0
          have hM : max (1 - cfg.max_leverage * (1 + feeRate cfgB)) 0 ≤
              max (1 - cfg.max_leverage * (1 + feeRate cfgA)) 0 := by
            apply max_le_max _ (le_refl 0)
            nlinarith
          have hm : min cfg.max_leverage (1 / (1 + feeRate cfgB)) ≤
              min cfg.max_leverage (1 / (1 + feeRate cfgA)) := by
            apply min_le_min (le_refl _)
            exact one_div_le_one_div_of_le h1kA (by linarith)
          constructor
          · dsimp only
            rw [hAs]
            have : 0 < c * min cfg.max_leverage (1 / (1 + feeRate cfgA)) / px :=
              div_pos (mul_pos hcpos hmA0) hpx
            simpa using ne_of_gt this
          · dsimp only
            rw [hAc, hAs, hBc, hBs]
            unfold Dominates
            dsimp only
            refine ⟨mul_nonneg hc hMB0, div_nonneg (mul_nonneg hc hmB0.le) hpx.le,
              mul_le_mul_of_nonneg_left hM hc,
              (div_le_div_right hpx).mpr (mul_le_mul_of_nonneg_left hm hc), ?_, ?_⟩
            · by_cases hcase : cfg.max_leverage * (1 + feeRate cfgB) ≤ 1
              · left
                have hAB : cfg.max_leverage * feeRate cfgA <
                    cfg.max_leverage * feeRate cfgB :=
                  mul_lt_mul_of_pos_left hkAB hLpos
                rw [max_eq_left (by nlinarith [hAB]), max_eq_left (by nlinarith [hAB])]
                nlinarith [mul_lt_mul_of_pos_left hAB hcpos]
              · right
                push_neg at hcase
                have hmBval : min cfg.max_leverage (1 / (1 + feeRate cfgB)) =
                    1 / (1 + feeRate cfgB) := by
                  apply min_eq_right
                  rw [div_le_iff₀ h1kB]
                  nlinarith
                have hmAgt : 1 / (1 + feeRate cfgB) <
                    min cfg.max_leverage (1 / (1 + feeRate cfgA)) := by
                  apply lt_min
                  · rw [div_lt_iff₀ h1kB]
                    nlinarith
                  · exact one_div_lt_one_div_of_lt h1kA (by linarith)
                apply (div_lt_div_right hpx).mpr
                rw [hmBval]
                exact mul_lt_mul_of_pos_left hmAgt hcpos
            · intro hpos hzero
              exfalso
              have : 0 < c * min cfg.max_leverage (1 / (1 + feeRate cfgB)) / px :=
                div_pos (mul_pos hcpos hmB0) hpx
              rw [hzero] at this
              exact lt_irrefl 0 this
  · -- holding shares
    rcases ht with rfl | rfl
    · right
      rw [stockStep_sell_all cfgA px pxc c s hspos hpx,
        stockStep_sell_all cfgB px pxc c s hspos hpx]
      dsimp only
      rw [show trade_cost (s * px) fA sA = s * px * feeRate cfgA from
          trade_cost_eq_feeRate cfgA (s * px),
        show trade_cost (s * px) fB sB = s * px * feeRate cfgB from
          trade_cost_eq_feeRate cfgB (s * px)]
      constructor
      · exact neg_ne_zero.mpr (ne_of_gt hspos)
      · unfold Dominates
        dsimp only
        have hsp : 0 < s * px := mul_pos hspos hpx
        refine ⟨by nlinarith, le_refl 0, by nlinarith, le_refl 0, Or.inl (by nlinarith),
          fun h0 => absurd h0 (lt_irrefl 0)⟩
    · left
      rw [stockStep_hold_long cfgA px pxc c s hspos, stockStep_hold_long cfgB px pxc c s hspos]
      exact ⟨rfl, rfl⟩

lemma stockLoop_nil (cfg : BacktestConfig) (d : ℕ → ℤ) (i : ℕ) (c s : ℚ) :
    stockLoop cfg d [] i c s = [] := rfl

lemma stockLoop_cons (cfg : BacktestConfig) (d : ℕ → ℤ) (b : Bar) (rest : List Bar)
    (i : ℕ) (c s : ℚ) :
    stockLoop cfg d (b :: rest) i c s =
      stockStep cfg (clampTarget cfg (d (i - 1))) (execPrice cfg b) b.Close c s ::
        stockLoop cfg d rest (i + 1)
          (stockStep cfg (clampTarget cfg (d (i - 1))) (execPrice cfg b) b.Close c s).Cash
          (stockStep cfg (clampTarget cfg (d (i - 1))) (execPrice cfg b) b.Close c s).Shares :=
  rfl

lemma execPrice_pos (cfg : BacktestConfig) (b : Bar) (h : 0 < b.Open ∧ 0 < b.Close) :
    0 < execPrice cfg b := by
  unfold execPrice
  cases cfg.execution
  · exact h.1
  · exact h.2

set_option maxHeartbeats 2000000 in
/-- Dominated states stay dominated through the loop, so the higher-fee run
finishes with strictly lower equity. -/
lemma stockLoop_dominates (cfg : BacktestConfig) (d : ℕ → ℤ) (fA sA fB sB : ℚ)
    (hfA : 0 ≤ fA) (hsA : 0 ≤ sA) (hlt : fA + sA < fB + sB) (hk1 : fB + sB ≤ 10000)
    (hl : 0 ≤ cfg.max_leverage) (hlo : cfg.long_only = true) :
    ∀ (bars : List Bar) (i : ℕ) (A B : ℚ × ℚ), Dominates A B → bars ≠ [] →
      (∀ b ∈ bars, 0 < b.Open ∧ 0 < b.Close) →
      lastEquityS (stockLoop { cfg with fee_bps := fB, slippage_bps := sB } d bars i
          B.1 B.2) <
        lastEquityS (stockLoop { cfg with fee_bps := fA, slippage_bps := sA } d bars i
          A.1 A.2) := by
  set cfgA := { cfg with fee_bps := fA, slippage_bps := sA } with hcfgA
  set cfgB := { cfg with fee_bps := fB, slippage_bps := sB } with hcfgB
  have hclamp : ∀ x, clampTarget cfgB x = clampTarget cfgA x := fun _ => rfl
  have hexecBA : ∀ bb, execPrice cfgB bb = execPrice cfgA bb := fun _ => rfl
  intro bars
  induction bars with
  | nil =>
    intro i A B _ hne _
    exact absurd rfl hne
  | cons b rest ih =>
    intro i A B hdom hne hbars
    have hb := hbars b (List.mem_cons_self b rest)
    have hpx : 0 < execPrice cfgA b := execPrice_pos cfgA b hb
    have ht : clampTarget cfgA (d (i - 1)) = 0 ∨ clampTarget cfgA (d (i - 1)) = 1 :=
      clampTarget_long_only cfgA hlo (d (i - 1))
    have hdom' := stockStep_dominates cfg fA sA fB sB hfA hsA hlt hk1 hl
      (clampTarget cfgA (d (i - 1))) ht (execPrice cfgA b) b.Close hpx A B hdom
    cases rest with
    | nil =>
      rw [stockLoop_cons cfgB d b [] i B.1 B.2, stockLoop_cons cfgA d b [] i A.1 A.2,
        stockLoop_nil, stockLoop_nil]
      simp only [hclamp, hexecBA]
      rw [lastEquityS_singleton, lastEquityS_singleton, stockStep_equity, stockStep_equity]
      exact dominates_equity_lt _ _ hdom' b.Close hb.2
    | cons b2 rest2 =>
      rw [stockLoop_cons cfgB d b (b2 :: rest2) i B.1 B.2,
        stockLoop_cons cfgA d b (b2 :: rest2) i A.1 A.2]
      simp only [hclamp, hexecBA]
      rw [lastEquityS_cons_of_ne _ _ (stockLoop_ne_nil cfgB d (b2 :: rest2) (i + 1) _ _
          (by simp)),
        lastEquityS_cons_of_ne _ _ (stockLoop_ne_nil cfgA d (b2 :: rest2) (i + 1) _ _
          (by simp))]
      exact ih (i + 1)
        ((stockStep cfgA (clampTarget cfgA (d (i - 1))) (execPrice cfgA b) b.Close
            A.1 A.2).Cash,
          (stockStep cfgA (clampTarget cfgA (d (i - 1))) (execPrice cfgA b) b.Close
            A.1 A.2).Shares)
        ((stockStep cfgB (clampTarget cfgA (d (i - 1))) (execPrice cfgA b) b.Close
            B.1 B.2).Cash,
          (stockStep cfgB (clampTarget cfgA (d (i - 1))) (execPrice cfgA b) b.Close
            B.1 B.2).Shares)
        hdom' (by simp)
        (fun x hx => hbars x (List.mem_cons_of_mem _ hx))

set_option maxHeartbeats 2000000 in
/-- From identical states, as soon as the lower-fee run records a nonzero
trade flow somewhere in the remaining bars, it finishes with strictly higher
equity than the higher-fee run. -/
lemma stockLoop_sync (cfg : BacktestConfig) (d : ℕ → ℤ) (fA sA fB sB : ℚ)
    (hfA : 0 ≤ fA) (hsA : 0 ≤ sA) (hlt : fA + sA < fB + sB) (hk1 : fB + sB ≤ 10000)
    (hl : 0 ≤ cfg.max_leverage) (hlo : cfg.long_only = true) :
    ∀ (bars : List Bar) (i : ℕ) (c s : ℚ), 0 ≤ c → 0 ≤ s →
      (∀ b ∈ bars, 0 < b.Open ∧ 0 < b.Close) →
      (∃ row ∈ stockLoop { cfg with fee_bps := fA, slippage_bps := sA } d bars i c s,
        row.TradeShares ≠ 0) →
      lastEquityS (stockLoop { cfg with fee_bps := fB, slippage_bps := sB } d bars i c s) <
        lastEquityS (stockLoop { cfg with fee_bps := fA, slippage_bps := sA } d bars i c s) := by
  set cfgA := { cfg with fee_bps := fA, slippage_bps := sA } with hcfgA
  set cfgB := { cfg with fee_bps := fB, slippage_bps := sB } with hcfgB
  have hclamp : ∀ x, clampTarget cfgB x = clampTarget cfgA x := fun _ => rfl
  have hexecBA : ∀ bb, execPrice cfgB bb = execPrice cfgA bb := fun _ => rfl
  intro bars
  induction bars with
  | nil =>
    intro i c s _ _ _ hex
    obtain ⟨row, hmem, -⟩ := hex
    simp [stockLoop] at hmem
  | cons b rest ih =>
    intro i c s hc hs hbars hex
    have hb := hbars b (List.mem_cons_self b rest)
    have hpx : 0 < execPrice cfgA b := execPrice_pos cfgA b hb
    have ht : clampTarget cfgA (d (i - 1)) = 0 ∨ clampTarget cfgA (d (i - 1)) = 1 :=
      clampTarget_long_only cfgA hlo (d (i - 1))
    have hsync := stockStep_sync cfg fA sA fB sB hfA hsA hlt hk1 hl
      (clampTarget cfgA (d (i - 1))) ht (execPrice cfgA b) b.Close hpx c s hc hs
    obtain ⟨row, hmem, hrow⟩ := hex
    rw [stockLoop_cons cfgA d b rest i c s] at hmem
    have hstep := stockStep_nonneg cfgA (clampTarget cfgA (d (i - 1))) (execPrice cfgA b)
      b.Close c s ht hc hs hfA hsA (by linarith) hl
    rcases hsync with ⟨heq, hts0⟩ | ⟨htsne, hdom⟩
    · rcases List.mem_cons.mp hmem with rfl | htail
      · exact absurd hts0 hrow
      · cases rest with
        | nil => simp [stockLoop] at htail
        | cons b2 rest2 =>
          rw [stockLoop_cons cfgB d b (b2 :: rest2) i c s,
            stockLoop_cons cfgA d b (b2 :: rest2) i c s]
          simp only [hclamp, hexecBA]
          rw [lastEquityS_cons_of_ne _ _ (stockLoop_ne_nil cfgB d (b2 :: rest2) (i + 1) _ _
              (by simp)),
            lastEquityS_cons_of_ne _ _ (stockLoop_ne_nil cfgA d (b2 :: rest2) (i + 1) _ _
              (by simp)),
            ← heq]
          exact ih (i + 1) _ _ hstep.1 hstep.2
            (fun x hx => hbars x (List.mem_cons_of_mem _ hx)) ⟨row, htail, hrow⟩
    · cases rest with
      | nil =>
        rw [stockLoop_cons cfgB d b [] i c s, stockLoop_cons cfgA d b [] i c s,
          stockLoop_nil, stockLoop_nil]
        simp only [hclamp, hexecBA]
        rw [lastEquityS_singleton, lastEquityS_singleton, stockStep_equity, stockStep_equity]
        exact dominates_equity_lt _ _ hdom b.Close hb.2
      | cons b2 rest2 =>
        rw [stockLoop_cons cfgB d b (b2 :: rest2) i c s,
          stockLoop_cons cfgA d b (b2 :: rest2) i c s]
        simp only [hclamp, hexecBA]
        rw [lastEquityS_cons_of_ne _ _ (stockLoop_ne_nil cfgB d (b2 :: rest2) (i + 1) _ _
            (by simp)),
          lastEquityS_cons_of_ne _ _ (stockLoop_ne_nil cfgA d (b2 :: rest2) (i + 1) _ _
            (by simp))]
        exact stockLoop_dominates cfg d fA sA fB sB hfA hsA hlt hk1 hl hlo
          (b2 :: rest2) (i + 1)
          ((stockStep cfgA (clampTarget cfgA (d (i - 1))) (execPrice cfgA b) b.Close
              c s).Cash,
            (stockStep cfgA (clampTarget cfgA (d (i - 1))) (execPrice cfgA b) b.Close
              c s).Shares)
          ((stockStep cfgB (clampTarget cfgA (d (i - 1))) (execPrice cfgA b) b.Close
              c s).Cash,
            (stockStep cfgB (clampTarget cfgA (d (i - 1))) (execPrice cfgA b) b.Close
              c s).Shares)
          hdom (by simp)
          (fun x hx => hbars x (List.mem_cons_of_mem _ hx))

/-- C7 counterexample: with shorting enabled (admissible in the claim, which
quantifies over every run of `run_stock_backtest` with at least one trade),
raising `fee_bps` from 0 to 100 (1%) *increases* final equity: the lower-fee
run carries more cash into the short entry, shorts more shares, and loses more
when the price quadruples.  Final equity: -200 (fee 0) vs -19899/101 ≈ -197.02
(fee 100). -/
theorem C7_cost_monotonicity_cex :
    cfgC7A.fee_bps < cfgC7B.fee_bps ∧ cfgC7A.slippage_bps = cfgC7B.slippage_bps ∧
      (∃ row ∈ run_stock_backtest cfgC7A barsC7 desC7, row.TradeShares ≠ 0) ∧
      lastEquityS (run_stock_backtest cfgC7A barsC7 desC7) <
        lastEquityS (run_stock_backtest cfgC7B barsC7 desC7) := by
  refine ⟨by norm_num [cfgC7A, cfgC7B], by norm_num [cfgC7A, cfgC7B], ?_, ?_⟩
  · have hrun : run_stock_backtest cfgC7A barsC7 desC7 =
        [⟨100, 0, 100, 0, 0⟩, ⟨0, 100, 100, 100, 0⟩, ⟨200, -100, 100, -200, 0⟩,
          ⟨200, -100, -200, 0, 0⟩] := by
      norm_num [run_stock_backtest, stockLoop, stockStep, openLong, clampTarget, execPrice,
        trade_cost, cfgC7A, barsC7, desC7, unitBar, abs_of_pos]
    rw [hrun]
    exact ⟨⟨0, 100, 100, 100, 0⟩, by simp, by norm_num⟩
  · have hrunA : lastEquityS (run_stock_backtest cfgC7A barsC7 desC7) = -200 := by
      norm_num [run_stock_backtest, stockLoop, stockStep, openLong, clampTarget, execPrice,
        trade_cost, cfgC7A, barsC7, desC7, unitBar, abs_of_pos, lastEquityS,
        List.getLastD]
    have hrunB : lastEquityS (run_stock_backtest cfgC7B barsC7 desC7) = -19899 / 101 := by
      norm_num [run_stock_backtest, stockLoop, stockStep, openLong, clampTarget, execPrice,
        trade_cost, cfgC7A, cfgC7B, barsC7, desC7, unitBar, abs_of_pos, lastEquityS,
        List.getLastD]
    rw [hrunA, hrunB]
    norm_num

/-- C7 amended: restricted to long-only runs (`long_only = True`) under the
spec's configuration contract — nonnegative fees with round-trip rate at most
10000 bps, nonnegative leverage cap, positive initial cash, positive opens
and closes — strictly increasing `fee_bps + slippage_bps`, all else equal,
strictly decreases the final equity of any run that executes at least one
trade (some ledger row with nonzero `TradeShares`). -/
theorem C7_cost_monotonicity_amended (cfg : BacktestConfig) (bars : List Bar)
    (desired : ℕ → ℤ) (fA sA fB sB : ℚ) (hfA : 0 ≤ fA) (hsA : 0 ≤ sA)
    (hlt : fA + sA < fB + sB) (hk1 : fB + sB ≤ 10000) (hl : 0 ≤ cfg.max_leverage)
    (hlo : cfg.long_only = true) (hic : 0 < cfg.initial_cash)
    (hbars : ∀ b ∈ bars, 0 < b.Open ∧ 0 < b.Close)
    (htrade : ∃ row ∈ run_stock_backtest { cfg with fee_bps := fA, slippage_bps := sA }
        bars desired, row.TradeShares ≠ 0) :
    lastEquityS (run_stock_backtest { cfg with fee_bps := fB, slippage_bps := sB }
        bars desired) <
      lastEquityS (run_stock_backtest { cfg with fee_bps := fA, slippage_bps := sA }
        bars desired) := by
  set cfgA := { cfg with fee_bps := fA, slippage_bps := sA } with hcfgA
  set cfgB := { cfg with fee_bps := fB, slippage_bps := sB } with hcfgB
  cases bars with
  | nil =>
    obtain ⟨row, hmem, -⟩ := htrade
    simp [run_stock_backtest] at hmem
  | cons b0 rest =>
    obtain ⟨row, hmem, hrow⟩ := htrade
    simp only [run_stock_backtest] at hmem ⊢
    rcases List.mem_cons.mp hmem with rfl | htail
    · exact absurd rfl hrow
    · have hrest_ne : rest ≠ [] := by
        intro hre
        subst hre
        simp [stockLoop] at htail

      rw [lastEquityS_cons_of_ne _ _ (stockLoop_ne_nil cfgB desired rest 1 _ _ hrest_ne),
        lastEquityS_cons_of_ne _ _ (stockLoop_ne_nil cfgA desired rest 1 _ _ hrest_ne)]
      exact stockLoop_sync cfg desired fA sA fB sB hfA hsA hlt hk1 hl hlo rest 1
        cfg.initial_cash 0 (le_of_lt hic) (le_refl 0)
        (fun b hb => hbars b (List.mem_cons_of_mem _ hb)) ⟨row, htail, hrow⟩

/-- Witness for C7's amended theorem: base config with initial cash 100 and
unit leverage on two unit bars with a constant buy signal; fees 0 vs 100 bps. -/
theorem C7_cost_monotonicity_amended_witness :
    lastEquityS (run_stock_backtest { cfgC2 with fee_bps := 100, slippage_bps := 0 }
        [unitBar, unitBar] (fun _ => 1)) <
      lastEquityS (run_stock_backtest { cfgC2 with fee_bps := 0, slippage_bps := 0 }
        [unitBar, unitBar] (fun _ => 1)) := by
  apply C7_cost_monotonicity_amended cfgC2 [unitBar, unitBar] (fun _ => 1) 0 0 100 0
    (le_refl 0) (le_refl 0) (by norm_num) (by norm_num) (by norm_num [cfgC2]) rfl
    (by norm_num [cfgC2])
  · intro b hb
    rcases List.mem_cons.mp hb with rfl | hb'
    · norm_num [unitBar]
    · rcases List.mem_cons.mp hb' with rfl | hb''
      · norm_num [unitBar]
      · simp at hb''
  · have hrun : run_stock_backtest { cfgC2 with fee_bps := 0, slippage_bps := 0 }
        [unitBar, unitBar] (fun _ => 1) =
        [⟨100, 0, 100, 0, 0⟩, ⟨0, 100, 100, 100, 0⟩] := by
      norm_num [run_stock_backtest, stockLoop, stockStep, openLong, clampTarget, execPrice,
        trade_cost, cfgC2, unitBar]
    rw [hrun]
    exact ⟨⟨0, 100, 100, 100, 0⟩, by simp, by norm_num⟩

/-! ### C10 — strike discretization -/

/-- C10: for every reference price `S` and every `step > 0`, `round_strike`
returns a multiple of `step` at distance at most `step / 2` from `S` (i.e. the
nearest multiple, ties included), and the spec's two concrete scenarios hold:
`round_strike 103.4 5 = 105` and `round_strike 102.4 5 = 100`. -/
theorem C10_round_strike :
    (∀ S step : ℚ, 0 < step →
      (∃ n : ℤ, round_strike S step = (n : ℚ) * step) ∧
        |round_strike S step - S| ≤ step / 2) ∧
    round_strike (517 / 5) 5 = 105 ∧ round_strike (512 / 5) 5 = 100 := by
  refine ⟨fun S step h => ⟨⟨pyRound (S / step), rfl⟩, round_strike_dist S step h⟩, ?_, ?_⟩
  · unfold round_strike pyRound
    norm_num
  · unfold round_strike pyRound
    norm_num

/-- Witness for C10: the universal part applied at `S = 7`, `step = 2`. -/
theorem C10_round_strike_witness :
    (∃ n : ℤ, round_strike 7 2 = (n : ℚ) * 2) ∧ |round_strike 7 2 - 7| ≤ 2 / 2 :=
  C10_round_strike.1 7 2 (by norm_num)

/-! ### C9 — benchmark degenerate-price behavior

The claim says a first close `≤ 0` yields an undefined (NaN) series.  The code
(line 39) instead guards the division: `shares = initial_cash / first if
first > 0 else 0.0`, so the output is the well-defined all-zero series. -/

/-- C9 counterexample: on a bar sequence whose first close is `0`, the code
produces the perfectly defined all-zero equity series `[0, 0]` — every entry
is the rational number `0` — not an undefined/NaN series as the claim states. -/
theorem C9_benchmark_cex : buy_and_hold_equity [0, 5] 10000 = [0, 0] := by
  norm_num [buy_and_hold_equity]

/-- C9 amended: if the first close is `≤ 0`, `buy_and_hold_equity` returns the
all-zero series (shares are set to `0` instead of dividing by zero); if the
first close is positive it buys `initial_cash / first` units and reports
`shares * close` at every bar. -/
theorem C9_benchmark_degenerate (first c : ℚ) (rest : List ℚ) :
    (first ≤ 0 →
      buy_and_hold_equity (first :: rest) c = (first :: rest).map (fun _ => 0)) ∧
    (0 < first →
      buy_and_hold_equity (first :: rest) c =
        (first :: rest).map (fun x => (c / first) * x)) := by
  constructor
  · intro hle
    have hnot : ¬(0 < first) := not_lt.mpr hle
    simp [buy_and_hold_equity, hnot]
  · intro hpos
    simp [buy_and_hold_equity, hpos]

/-- Witness for C9's amended theorem, at `first = 0`, `c = 10000`,
`rest = [5]` for the degenerate branch and `first = 4`, `rest = [5]`,
`c = 100` for the positive branch. -/
theorem C9_benchmark_degenerate_witness :
    buy_and_hold_equity [(0 : ℚ), 5] 10000 = [0, 0] ∧
      buy_and_hold_equity [(4 : ℚ), 5] 100 = [100, 125] := by
  constructor
  · have h := (C9_benchmark_degenerate 0 10000 [5]).1 (le_refl 0)
    simpa using h
  · have h := (C9_benchmark_degenerate 4 100 [5]).2 (by norm_num)
    norm_num at h
    exact h

end AlgoSim
